import Mathlib

/-!
Shallow embedding of the motion-planning repository (files `p_u.py` and
`motion_planning.py`) and proofs about its specification claims.

Conventions of the embedding:
* Python floats are modelled as exact rationals `ℚ`; Python ints as `ℤ`.
* Grid cells / nodes are integer pairs `(north, east)`, as in the source.
* Fallible Python code (KeyError, UnboundLocalError) is modelled with
  `Except`; loops are modelled with explicit fuel, with a distinguished
  `fuelError` result that is proved unreachable wherever a claim needs it.
* The frontier of `a_star` is a `queue.PriorityQueue`, which in CPython is
  a binary heap (`heapq`) over `(priority, node)` tuples compared
  lexicographically.  `heappush`/`heappop` below mirror the CPython
  `heapq` algorithm (`_siftdown`/`_siftup`) on a `List`.
-/

namespace MP

-- Rational arithmetic must evaluate inside `decide` proofs about concrete
-- runs; the kernel ignores reducibility annotations, this only helps the
-- elaborator's pre-check.
attribute [local semireducible] Rat.mul Rat.add Rat.sub Rat.inv

instance {ε α : Type _} [DecidableEq ε] [DecidableEq α] :
    DecidableEq (Except ε α)
  | .error a, .error b =>
    if h : a = b then .isTrue (by rw [h])
    else .isFalse (fun hh => h (by cases hh; rfl))
  | .error _, .ok _ => .isFalse (by intro h; cases h)
  | .ok _, .error _ => .isFalse (by intro h; cases h)
  | .ok a, .ok b =>
    if h : a = b then .isTrue (by rw [h])
    else .isFalse (fun hh => h (by cases hh; rfl))

/-- A grid cell, a Python `(int, int)` tuple `(north_index, east_index)`. -/
abbrev Node := ℤ × ℤ

/-- A frontier entry `(queue_cost, next_node)` as put on the priority queue. -/
abbrev Entry := ℚ × Node

/-- Python `<` on `(int, int)` tuples: lexicographic. -/
def nodeLtb (a b : Node) : Bool := a.1 < b.1 || (a.1 = b.1 && a.2 < b.2)

/-- Python `<` on `(priority, node)` tuples: lexicographic; when the
priorities tie, the comparison falls through to the node tuples. -/
def entryLtb (a b : Entry) : Bool := a.1 < b.1 || (a.1 = b.1 && nodeLtb a.2 b.2)

/-- Non-strict counterpart of `entryLtb` (`x` is no larger than `y`). -/
def entryLeb (x y : Entry) : Bool := !(entryLtb y x)

/-- Default entry used for out-of-range list reads; the algorithms below
only ever read in range, as the accompanying lemmas show. -/
def dEntry : Entry := (0, (0, 0))

/-- CPython `heapq._siftdown(heap, startpos, pos)`: the newly placed item
bubbles up toward the root while it is smaller than its parent.  The moved
item is carried in `newitem` exactly as in the Python local variable.
The `while` loop is given explicit fuel; `pos` strictly decreases each
pass, so fuel `pos` always suffices (the callers pass exactly that), and
the fuel-exhausted case writes `newitem` back just as loop exit does. -/
def siftdownLoop : ℕ → List Entry → ℕ → ℕ → Entry → List Entry
  | 0, heap, _, pos, newitem => heap.set pos newitem
  | fuel + 1, heap, startpos, pos, newitem =>
    -- `parentpos = (pos - 1) >> 1`, `parent = heap[parentpos]`
    if startpos < pos then
      if entryLtb newitem (heap.getD ((pos - 1) / 2) dEntry) then
        siftdownLoop fuel (heap.set pos (heap.getD ((pos - 1) / 2) dEntry))
          startpos ((pos - 1) / 2) newitem
      else
        heap.set pos newitem
    else
      heap.set pos newitem

/-- CPython `heapq.heappush(heap, item)`: append then sift down from the
last position. -/
def heappush (heap : List Entry) (item : Entry) : List Entry :=
  siftdownLoop heap.length (heap ++ [item]) 0 heap.length item

/-- The child `_siftup` promotes: the right child when it exists and the
left child is not smaller, otherwise the left child. -/
def heapChild (heap : List Entry) (endpos pos : ℕ) : ℕ :=
  if 2 * pos + 1 + 1 < endpos &&
      !(entryLtb (heap.getD (2 * pos + 1) dEntry)
        (heap.getD (2 * pos + 1 + 1) dEntry))
  then 2 * pos + 1 + 1 else 2 * pos + 1

/-- The child-promoting loop of CPython `heapq._siftup`: the hole at `pos`
is repeatedly filled with its smaller child until it reaches a leaf.
Returns the final hole position together with the updated list.  The hole
descends at least one index per pass, so fuel `endpos` suffices. -/
def siftupLoop : ℕ → List Entry → ℕ → ℕ → ℕ × List Entry
  | 0, heap, _, pos => (pos, heap)
  | fuel + 1, heap, endpos, pos =>
    -- `childpos = 2*pos + 1`; `heapChild` selects the promoted child
    if 2 * pos + 1 < endpos then
      siftupLoop fuel
        (heap.set pos (heap.getD (heapChild heap endpos pos) dEntry))
        endpos (heapChild heap endpos pos)
    else
      (pos, heap)

/-- CPython `heapq._siftup(heap, pos)`: sink the item at `pos` to a leaf by
promoting smaller children, then sift the saved item down from there. -/
def siftup (heap : List Entry) (pos : ℕ) : List Entry :=
  siftdownLoop (siftupLoop heap.length heap heap.length pos).1
    (siftupLoop heap.length heap heap.length pos).2 pos
    (siftupLoop heap.length heap heap.length pos).1
    (heap.getD pos dEntry)

/-- CPython `heapq.heappop(heap)`: pop the last element; if the heap is
still nonempty, the root is returned and the last element is sifted from
the root.  Returns `none` on an empty heap (the `a_star` loop guards with
`queue.empty()` before calling `get`). -/
def heappop (heap : List Entry) : Option (Entry × List Entry) :=
  match heap.getLast? with
  | none => none
  | some lastelt =>
    if heap.dropLast.isEmpty then some (lastelt, [])
    else some (heap.dropLast.getD 0 dEntry,
      siftup (heap.dropLast.set 0 lastelt) 0)

/-! ### `p_u.py`: `Action`, `valid_actions`, grids -/

/-- The `Action` enum of `p_u.py`: a delta relative to the current position
plus a unit cost. -/
inductive Action where
  | WEST | EAST | NORTH | SOUTH
deriving DecidableEq, Inhabited

/-- `Action.delta`: the first two components of the enum value. -/
def Action.delta : Action → ℤ × ℤ
  | .WEST => (0, -1)
  | .EAST => (0, 1)
  | .NORTH => (-1, 0)
  | .SOUTH => (1, 0)

/-- `Action.cost`: third component of the enum value; `1` for all four. -/
def Action.cost : Action → ℚ
  | _ => 1

/-- `list(Action)` in enum-declaration order. -/
def actionList : List Action := [.WEST, .EAST, .NORTH, .SOUTH]

/-- The occupancy grid: a numpy 2D array `grid` of shape
`(nrows, ncols)` whose cells hold 0/1, read through `occ`.  `occ` is a
total function on `ℤ × ℤ`; the algorithms only read in-bounds cells (numpy
would raise or wrap otherwise), which the claims' hypotheses guarantee. -/
structure Grid where
  nrows : ℕ
  ncols : ℕ
  occ : ℤ → ℤ → Bool

/-- Applying an action's delta to a node:
`(current[0] + da[0], current[1] + da[1])`. -/
def applyA (n : Node) (a : Action) : Node := (n.1 + a.delta.1, n.2 + a.delta.2)

/-- The removal condition of `valid_actions`, per action.  `keepA` is true
iff the source does NOT remove the action: e.g. NORTH is removed when
`x-1 < 0 or grid[x-1, y] == 1`. -/
def keepA (g : Grid) (node : Node) : Action → Bool
  | .NORTH => !(node.1 - 1 < 0 || g.occ (node.1 - 1) node.2)
  | .SOUTH => !(node.1 + 1 > (g.nrows : ℤ) - 1 || g.occ (node.1 + 1) node.2)
  | .WEST => !(node.2 - 1 < 0 || g.occ node.1 (node.2 - 1))
  | .EAST => !(node.2 + 1 > (g.ncols : ℤ) - 1 || g.occ node.1 (node.2 + 1))

/-- `valid_actions(grid, current_node)` from `p_u.py`.  The source starts
from `list(Action)` and calls `remove` for each failing direction; since
each direction is removed at most once and removal keeps the relative
order of the remaining elements, the result equals this filter. -/
def valid_actions (g : Grid) (node : Node) : List Action :=
  actionList.filter (keepA g node)

/-- A node lies inside the grid's index rectangle. -/
def InBounds (g : Grid) (n : Node) : Prop :=
  0 ≤ n.1 ∧ n.1 < (g.nrows : ℤ) ∧ 0 ≤ n.2 ∧ n.2 < (g.ncols : ℤ)

instance (g : Grid) (n : Node) : Decidable (InBounds g n) := by
  unfold InBounds; infer_instance

/-- Code-level reachability: the reflexive-transitive closure of taking a
`valid_actions` step.  This is exactly "a sequence of 4-connected
unoccupied cells connects `s` to the node": every step's destination is
in-bounds and unoccupied. -/
inductive Reach (g : Grid) (s : Node) : Node → Prop
  | refl : Reach g s s
  | step {n : Node} {a : Action} :
      Reach g s n → a ∈ valid_actions g n → Reach g s (applyA n a)

/-! ### `p_u.py`: `a_star` -/

/-- Python exceptions that `a_star`/`prune_path` can raise, plus the
out-of-fuel marker of the embedding (proved unreachable where needed). -/
inductive PyErr where
  | keyError
  | unboundLocal
  | fuelError
deriving DecidableEq

/-- The `branch` dictionary: node ↦ (branch_cost, predecessor, action).
Modelled as an association list with the most recent binding first; every
key is written at most once (guarded by `visited`), so lookups are
unambiguous. -/
abbrev Branch := List (Node × (ℚ × Node × Action))

/-- One pass of the `for action in valid_actions(...)` body of `a_star`:
push unvisited successors, record them in `visited` and `branch`. -/
def expand (g : Grid) (h : Node → Node → ℚ) (goal current : Node)
    (currentCost : ℚ) :
    List Action → List Entry × Finset Node × Branch →
    List Entry × Finset Node × Branch
  | [], st => st
  | a :: rest, (queue, visited, branch) =>
    -- next_node = applyA current a; branch_cost = currentCost + a.cost;
    -- queue_cost = branch_cost + h(next_node, goal)
    if applyA current a ∉ visited then
      expand g h goal current currentCost rest
        (heappush queue (currentCost + a.cost + h (applyA current a) goal,
            applyA current a),
          insert (applyA current a) visited,
          (applyA current a, (currentCost + a.cost, current, a)) :: branch)
    else
      expand g h goal current currentCost rest (queue, visited, branch)

/-- The `while not queue.empty()` loop of `a_star`, with fuel.  Returns
the `found` flag together with the final queue, visited set and branch
dictionary.  Popping a non-start node that has no `branch` entry would be
a Python `KeyError` (it cannot happen, as proved below). -/
def aStarLoop (g : Grid) (h : Node → Node → ℚ) (start goal : Node) :
    ℕ → List Entry → Finset Node → Branch →
    Except PyErr (Bool × List Entry × Finset Node × Branch)
  | 0, _, _, _ => .error .fuelError
  | fuel + 1, queue, visited, branch =>
    match heappop queue with
    | none => .ok (false, queue, visited, branch)
    | some (item, queue') =>
      -- current_node = item[1]; current_cost = 0 for the start node, else
      -- branch[current_node][0] (KeyError when the key is absent)
      match (if item.2 = start then Except.ok 0
             else
               match branch.lookup item.2 with
               | some v => Except.ok v.1
               | none => Except.error PyErr.keyError : Except PyErr ℚ) with
      | .error e => .error e
      | .ok currentCost =>
        if item.2 = goal then .ok (true, queue', visited, branch)
        else
          match expand g h goal item.2 currentCost
            (valid_actions g item.2) (queue', visited, branch) with
          | (q2, v2, b2) => aStarLoop g h start goal fuel q2 v2 b2

/-- The `while branch[n][1] != start` retracing loop of `a_star`:
successively append predecessors to the accumulated path (which the caller
seeds with `[goal]`), stopping when the predecessor is `start`. -/
def retrace (start : Node) (branch : Branch) :
    ℕ → Node → List Node → Except PyErr (List Node)
  | 0, _, _ => .error .fuelError
  | fuel + 1, n, acc =>
    match branch.lookup n with
    | none => .error .keyError
    | some (_, p, _) =>
      if p = start then .ok (acc ++ [p])
      else retrace start branch fuel p (acc ++ [p])

/-- `a_star(grid, h, start, goal)` from `p_u.py`.

The Python `visited = set(start)` builds a set of the two *coordinates* of
the start tuple (it iterates the tuple), not a set containing the start
node; since an int never compares equal to a tuple, that set is empty as a
set of nodes, hence `∅` here.  On failure the source returns
`(path[::-1], path_cost) = ([], 0)` after printing; the `found` flag is
not returned.  The loop fuel `nrows * ncols + 2` is proved sufficient for
in-bounds starts below. -/
def a_star (g : Grid) (h : Node → Node → ℚ) (start goal : Node) :
    Except PyErr (List Node × ℚ) :=
  match aStarLoop g h start goal (g.nrows * g.ncols + 2)
      [((0 : ℚ), start)] ∅ [] with
  | .error e => .error e
  | .ok (false, _, _, _) => .ok ([], 0)
  | .ok (true, _, _, branch) =>
    match branch.lookup goal with
    | none => .error .keyError
    | some v =>
      match retrace start branch (branch.length + 1) goal [goal] with
      | .error e => .error e
      | .ok path => .ok (path.reverse, v.1)

/-! ### Ghost-instrumented `a_star` run, recording enqueue and dequeue
order (same algorithm as `aStarLoop`/`expand`, with two write-only trace
accumulators appended at the end of each pass). -/

/-- `expand` with a push trace: identical to `expand`, additionally
appending each entry handed to `queue.put` to `pushes` in program order. -/
def expandT (g : Grid) (h : Node → Node → ℚ) (goal current : Node)
    (currentCost : ℚ) :
    List Action → List Entry × Finset Node × Branch × List Entry →
    List Entry × Finset Node × Branch × List Entry
  | [], st => st
  | a :: rest, (queue, visited, branch, pushes) =>
    let next := applyA current a
    let branchCost := currentCost + a.cost
    let queueCost := branchCost + h next goal
    if next ∉ visited then
      expandT g h goal current currentCost rest
        (heappush queue (queueCost, next), insert next visited,
          (next, (branchCost, current, a)) :: branch,
          pushes ++ [(queueCost, next)])
    else
      expandT g h goal current currentCost rest (queue, visited, branch, pushes)

/-- `aStarLoop` with push/pop traces: identical control flow, additionally
appending each item returned by `queue.get` to `pops`. -/
def aStarLoopT (g : Grid) (h : Node → Node → ℚ) (start goal : Node) :
    ℕ → List Entry → Finset Node → Branch → List Entry → List Entry →
    Except PyErr (Bool × List Entry × List Entry)
  | 0, _, _, _, _, _ => .error .fuelError
  | fuel + 1, queue, visited, branch, pushes, pops =>
    match heappop queue with
    | none => .ok (false, pushes, pops)
    | some (item, queue') =>
      let current := item.2
      let costRes : Except PyErr ℚ :=
        if current = start then .ok 0
        else
          match branch.lookup current with
          | some v => .ok v.1
          | none => .error .keyError
      match costRes with
      | .error e => .error e
      | .ok currentCost =>
        if current = goal then .ok (true, pushes, pops ++ [item])
        else
          let st := expandT g h goal current currentCost
            (valid_actions g current) (queue', visited, branch, pushes)
          aStarLoopT g h start goal fuel st.1 st.2.1 st.2.2.1 st.2.2.2
            (pops ++ [item])

/-- Traced `a_star` run: the sequences of enqueued and dequeued
`(priority, node)` entries, in order. -/
def aStarTrace (g : Grid) (h : Node → Node → ℚ) (start goal : Node) :
    Except PyErr (Bool × List Entry × List Entry) :=
  aStarLoopT g h start goal (g.nrows * g.ncols + 2)
    [((0 : ℚ), start)] ∅ [] [((0 : ℚ), start)] []

/-! ### `p_u.py`: `create_grid` -/

/-- One row of the obstacle table: `(north, east, alt, d_north, d_east,
d_alt)`, modelled with exact rationals. -/
structure Obstacle where
  north : ℚ
  east : ℚ
  alt : ℚ
  dNorth : ℚ
  dEast : ℚ
  dAlt : ℚ
deriving DecidableEq

/-- Minimum of a list of rationals (`np.min`; the empty case, on which
numpy raises, is given an arbitrary value and excluded by hypotheses). -/
def listMin : List ℚ → ℚ
  | [] => 0
  | x :: xs => xs.foldl min x

/-- Maximum of a list of rationals (`np.max`). -/
def listMax : List ℚ → ℚ
  | [] => 0
  | x :: xs => xs.foldl max x

/-- Python `int(...)` on a float: truncation toward zero. -/
def pyInt (x : ℚ) : ℤ := if 0 ≤ x then ⌊x⌋ else ⌈x⌉

/-- `int(np.clip(x, lo, hi))`: numpy clips as `min(max(x, lo), hi)`; the
outer `int` truncates (all clipped values used here are ≥ 0). -/
def pyClipInt (x : ℚ) (lo hi : ℤ) : ℤ :=
  pyInt (min (max x (lo : ℚ)) (hi : ℚ))

/-- The result triple of `create_grid`. -/
structure CGrid where
  grid : Grid
  north_min : ℤ
  east_min : ℤ

/-- The rendering condition of an obstacle:
`alt + d_alt + safety_distance > drone_altitude`. -/
def rendered (o : Obstacle) (drone_altitude safety_distance : ℚ) : Bool :=
  o.alt + o.dAlt + safety_distance > drone_altitude

/-- The four clipped cell bounds `obstacle = [...]` computed by
`create_grid` for one rendered obstacle.  This reproduces the source
verbatim, including its east-side quirks: the east upper bound uses
`east - d_east + safety_distance` and both east bounds are clipped with
`north_size - 1`. -/
def obstacleBounds (o : Obstacle) (safety_distance : ℚ)
    (north_min east_min north_size : ℤ) : ℤ × ℤ × ℤ × ℤ :=
  (pyClipInt (o.north - o.dNorth - safety_distance - north_min) 0 (north_size - 1),
   pyClipInt (o.north + o.dNorth + safety_distance - north_min) 0 (north_size - 1),
   pyClipInt (o.east - o.dEast - safety_distance - east_min) 0 (north_size - 1),
   pyClipInt (o.east - o.dEast + safety_distance - east_min) 0 (north_size - 1))

/-- `create_grid(data, drone_altitude, safety_distance)` from `p_u.py`.
The grid cell `(i, j)` holds 1 iff some rendered obstacle's assignment
`grid[obstacle[0]:obstacle[1]+1, obstacle[2]:obstacle[3]+1] = 1` wrote to
it; `north_size = int(np.ceil(north_max - north_min))` equals
`north_max - north_min` because both operands are integral floats. -/
def create_grid (data : List Obstacle) (drone_altitude safety_distance : ℚ) :
    CGrid :=
  let north_min : ℤ := ⌊listMin (data.map (fun o => o.north - o.dNorth))⌋
  let north_max : ℤ := ⌈listMax (data.map (fun o => o.north + o.dNorth))⌉
  let east_min : ℤ := ⌊listMin (data.map (fun o => o.east - o.dEast))⌋
  let east_max : ℤ := ⌈listMax (data.map (fun o => o.east + o.dEast))⌉
  let north_size : ℤ := north_max - north_min
  let east_size : ℤ := east_max - east_min
  { grid :=
      { nrows := north_size.toNat
        ncols := east_size.toNat
        occ := fun i j =>
          data.any fun o =>
            rendered o drone_altitude safety_distance &&
              (let b := obstacleBounds o safety_distance north_min east_min north_size
               b.1 ≤ i && i ≤ b.2.1 && b.2.2.1 ≤ j && j ≤ b.2.2.2) }
    north_min := north_min
    east_min := east_min }

/-- Modelled from the spec (§4.1 / C1): the occupied east/north ranges the
specification prescribes for a rendered obstacle — both bounds use the
full inflated extent `center ± half_extent ± safety`, and each axis is
clipped to its own dimension.  Used only to exhibit the divergence from
`create_grid`. -/
def spec_occupied (data : List Obstacle) (drone_altitude safety_distance : ℚ)
    (i j : ℤ) : Bool :=
  let north_min : ℤ := ⌊listMin (data.map (fun o => o.north - o.dNorth))⌋
  let north_max : ℤ := ⌈listMax (data.map (fun o => o.north + o.dNorth))⌉
  let east_min : ℤ := ⌊listMin (data.map (fun o => o.east - o.dEast))⌋
  let east_max : ℤ := ⌈listMax (data.map (fun o => o.east + o.dEast))⌉
  let north_size : ℤ := north_max - north_min
  let east_size : ℤ := east_max - east_min
  data.any fun o =>
    rendered o drone_altitude safety_distance &&
      (pyClipInt (o.north - o.dNorth - safety_distance - north_min) 0 (north_size - 1) ≤ i &&
       i ≤ pyClipInt (o.north + o.dNorth + safety_distance - north_min) 0 (north_size - 1) &&
       pyClipInt (o.east - o.dEast - safety_distance - east_min) 0 (east_size - 1) ≤ j &&
       j ≤ pyClipInt (o.east + o.dEast + safety_distance - east_min) 0 (east_size - 1))

/-! ### `p_u.py`: `point`, `collinearity_check`, `prune_path` -/

/-- A 2D point as handled by `point(p)`/`collinearity_check` (row
`[p[0], p[1], 1]`); the third homogeneous coordinate is implicit. -/
abbrev Pt := ℚ × ℚ

/-- The determinant of the 3×3 matrix `np.concatenate((p1, p2, p3), 0)`
with rows `[x, y, 1]`, expanded along the last column. -/
def det3 (p1 p2 p3 : Pt) : ℚ :=
  p1.1 * (p2.2 - p3.2) - p1.2 * (p2.1 - p3.1) + (p2.1 * p3.2 - p2.2 * p3.1)

/-- `collinearity_check(p1, p2, p3, epsilon=1e-6)`:
`np.abs(det) < epsilon`. -/
def collinearity_check (p1 p2 p3 : Pt) : Bool :=
  |det3 p1 p2 p3| < (1 / 1000000 : ℚ)

/-- The `while i < len(pruned_path) - 2` loop of `prune_path`, generic in
the point representation (`toQ` plays the role of `point(p)` reading
`p[0], p[1]`).  On a collinear triple the source calls
`pruned_path.remove(pruned_path[i+1])`, which deletes the first occurrence
of that *value* — `List.erase` has exactly this semantics. -/
def pruneLoop {α : Type} [DecidableEq α] (toQ : α → Pt) :
    ℕ → List α → ℕ → List α
  | 0, l, _ => l
  | fuel + 1, l, i =>
    -- p1, p2, p3 are `point(pruned_path[i])`, `[i+1]`, `[i+2]`
    if h : i + 2 < l.length then
      if collinearity_check (toQ (l.get ⟨i, by omega⟩))
          (toQ (l.get ⟨i + 1, by omega⟩)) (toQ (l.get ⟨i + 2, by omega⟩)) then
        pruneLoop toQ fuel (l.erase (l.get ⟨i + 1, by omega⟩)) i
      else
        pruneLoop toQ fuel l (i + 1)
    else
      l

/-- The body of `prune_path` on an actual list.  Each `while` pass either
removes one element (the measure `2·length − i` drops by 2) or advances
`i` (it drops by 1), so fuel `2 · length` always suffices; sufficiency is
proved with the claims below. -/
def prune_path_list {α : Type} [DecidableEq α] (toQ : α → Pt)
    (path : List α) : List α :=
  pruneLoop toQ (2 * path.length) path 0

/-- `prune_path(path)` from `p_u.py`, including the `None` guard: when
`path is None` the guarded block is skipped and the trailing
`return pruned_path` reads a never-assigned local, a Python
`UnboundLocalError`. -/
def prune_path {α : Type} [DecidableEq α] (toQ : α → Pt)
    (path : Option (List α)) : Except PyErr (List α) :=
  match path with
  | none => .error .unboundLocal
  | some l => .ok (prune_path_list toQ l)

/-! ### `motion_planning.py`: flight states, `state_callback`, the tail of
`plan_path` -/

/-- The `States` enum of `motion_planning.py`. -/
inductive States where
  | MANUAL | ARMING | TAKEOFF | WAYPOINT | LANDING | DISARMING | PLANNING
deriving DecidableEq

/-- Commands issued to the vehicle/simulator by the transition methods. -/
inductive Command where
  | arm | take_control | takeoff | cmd_position | land | disarm
  | release_control | stop
deriving DecidableEq

/-- The drone-side flags read by `state_callback`, plus the pieces of
`MotionPlanning` state it touches. -/
structure DroneState where
  flight_state : States
  in_mission : Bool
  armed : Bool
  guided : Bool
deriving DecidableEq

/-- Python `~` applied to a `bool`: `bool` is an `int` subclass, so
`~True = -2` and `~False = -1`. -/
def pyInvert (b : Bool) : ℤ := if b then -2 else -1

/-- The guard `~self.armed & ~self.guided` of the DISARMING branch: a
bitwise AND of two Python ints, truthy iff nonzero. -/
def disarmGuard (armed guided : Bool) : Bool :=
  Int.land (pyInvert armed) (pyInvert guided) ≠ 0

/-- Outcome of one `state_callback` invocation: the updated state plus the
commands issued, in order.  `plan_path` is abstracted to its observable
effect on this fragment (it sets `flight_state = PLANNING`; its planning
work is modelled separately by `plan_path_after_search`). -/
def state_callback (s : DroneState) : DroneState × List Command :=
  if s.in_mission then
    match s.flight_state with
    | .MANUAL =>
        -- arming_transition
        ({ s with flight_state := .ARMING }, [.arm, .take_control])
    | .ARMING =>
        if s.armed then ({ s with flight_state := .PLANNING }, []) else (s, [])
    | .PLANNING =>
        -- takeoff_transition
        ({ s with flight_state := .TAKEOFF }, [.takeoff])
    | .DISARMING =>
        if disarmGuard s.armed s.guided then
          -- manual_transition
          ({ s with flight_state := .MANUAL, in_mission := false }, [.stop])
        else (s, [])
    | _ => (s, [])
  else (s, [])

/-- A waypoint `[p[0] + north_offset, p[1] + east_offset, TARGET_ALTITUDE, 0]`. -/
abbrev Waypoint := ℤ × ℤ × ℤ × ℤ

/-- Observable outcome of the tail of `plan_path` (everything after the
`a_star` call). -/
structure PlanOutcome where
  waypoints : List Waypoint
  sent : Bool
  flight_state : States
deriving DecidableEq

/-- `TARGET_ALTITUDE = 5` in `plan_path`. -/
def TARGET_ALTITUDE : ℤ := 5

/-- The tail of `plan_path` after `a_star` returns `(path, _)`: prune the
path, convert to waypoints with the grid offsets, store them, and call
`send_waypoints()` (which serializes `self.waypoints` and writes it to the
simulator connection) — unconditionally, whether or not the search found a
path.  `plan_path` set `flight_state = PLANNING` on entry and never
changes it afterwards. -/
def plan_path_after_search (searchResult : List Node × ℚ)
    (north_offset east_offset : ℤ) : PlanOutcome :=
  let path := prune_path_list (fun n : Node => ((n.1 : ℚ), (n.2 : ℚ)))
    searchResult.1
  let waypoints := path.map
    (fun p => (p.1 + north_offset, p.2 + east_offset, TARGET_ALTITUDE, (0 : ℤ)))
  { waypoints := waypoints, sent := true, flight_state := .PLANNING }

/-! ### Concrete inputs used by counterexamples and witnesses -/

/-- The zero heuristic (any `h` argument is legal for `a_star`). -/
def hZero : Node → Node → ℚ := fun _ _ => 0

/-- A 1×2 grid with both cells free. -/
def exFree12 : Grid := { nrows := 1, ncols := 2, occ := fun _ _ => false }

/-- A 1×2 grid whose cell `(0, 1)` is occupied. -/
def exBlk12 : Grid := { nrows := 1, ncols := 2, occ := fun i j => i = 0 && j = 1 }

/-- A 3×3 grid with every cell free. -/
def exFree33 : Grid := { nrows := 3, ncols := 3, occ := fun _ _ => false }

/-- A single square obstacle of half-extents 5 centred at `(5, 5)`,
reaching altitude 20. -/
def exObstacle : Obstacle := ⟨5, 5, 10, 5, 5, 10⟩

/-- A path whose point `(0, 0)` recurs: the `list.remove` call of
`prune_path` then deletes the *first* `(0, 0)`, i.e. the head. -/
def exPathC6 : List Pt := [(0, 0), (5, 7), (1, 0), (0, 0), (3, 0)]

/-- A path with a duplicated point `(1, 0)`; one pruning pass leaves the
exactly-collinear triple `((0,0), (1,0), (1,0))` behind. -/
def exPathC8 : List Pt := [(0, 0), (1, 0), (1, 1), (1, 0)]

/-- The enqueue order of the `a_star` run on `exFree33` from `(1, 1)` to
`(0, 0)` with the zero heuristic. -/
def exPushes : List Entry :=
  [(0, (1, 1)), (1, (1, 0)), (1, (1, 2)), (1, (0, 1)), (1, (2, 1)),
   (2, (0, 0)), (2, (0, 2)), (2, (1, 1)), (2, (2, 0)), (2, (2, 2))]

/-- The dequeue order of the same run. -/
def exPops : List Entry :=
  [(0, (1, 1)), (1, (0, 1)), (1, (1, 0)), (1, (1, 2)), (1, (2, 1)),
   (2, (0, 0))]

/-- A three-entry frontier whose priorities all tie at 1. -/
def exHeap : List Entry := [(1, (0, 1)), (1, (1, 2)), (1, (1, 0))]

instance : DecidableEq (List Entry × List Entry) := instDecidableEqProd

instance : DecidableEq (Bool × List Entry × List Entry) := instDecidableEqProd

/-- The binary-min-heap invariant of a `heapq` list, with respect to the
Python tuple order `entryLtb`: no child compares strictly below its
parent. -/
def isMinHeapB (l : List Entry) : Bool :=
  (List.range l.length).all fun j =>
    j = 0 || !(entryLtb (l.getD j dEntry) (l.getD ((j - 1) / 2) dEntry))

/-- The 2D cross product, used to reason about `det3`. -/
def cross (u v : Pt) : ℚ := u.1 * v.2 - u.2 * v.1

/-- The collinearity test of the consecutive triple of `l` starting at
position `j` (out-of-range reads default to the origin; only used with
`j + 2 < l.length`). -/
def collAt (l : List Pt) (j : ℕ) : Bool :=
  collinearity_check (l.getD j (0, 0)) (l.getD (j + 1) (0, 0))
    (l.getD (j + 2) (0, 0))

/-- A point whose two coordinates are integers (grid cells are; `det3` on
such points is an integer, so the `1e-6` tolerance coincides with exact
collinearity). -/
def IsIntPt (p : Pt) : Prop := ∃ a b : ℤ, p = ((a : ℚ), (b : ℚ))

/-! ### Invariants of the `a_star` loop -/

/-- The keys of the `branch` dictionary. -/
def bkeys (b : Branch) : List Node := b.map Prod.fst

/-- The nodes currently on the frontier. -/
def qnodes (q : List Entry) : List Node := q.map Prod.snd

/-- One grid step of the search: some valid action leads from `x` to
`y` (so `y` is in bounds and unoccupied). -/
def stepRel (g : Grid) (x y : Node) : Prop :=
  ∃ a ∈ valid_actions g x, y = applyA x a

/-- Well-formedness of one `branch` entry `(n, (cost, pred, action))`
relative to the whole dictionary: the action is valid at the predecessor
and leads to the key, and the cost extends the predecessor's recorded
cost by one (the start's cost being the literal `0`). -/
def EntryOK (g : Grid) (start : Node) (b : Branch)
    (e : Node × (ℚ × Node × Action)) : Prop :=
  e.2.2.2 ∈ valid_actions g e.2.2.1 ∧
  e.1 = applyA e.2.2.1 e.2.2.2 ∧
  ((e.2.2.1 = start ∧ e.2.1 = 1) ∨
   (e.2.2.1 ≠ start ∧ ∃ val, b.lookup e.2.2.1 = some val ∧ e.2.1 = val.1 + 1))

/-- Entries are written newest-first; each entry's predecessor is the
start or a strictly older key. -/
def BranchOrdered (start : Node) : Branch → Prop
  | [] => True
  | e :: rest => (e.2.2.1 = start ∨ e.2.2.1 ∈ bkeys rest) ∧
      BranchOrdered start rest

/-- The core invariant tying the frontier, the visited set and the
branch dictionary together. -/
structure AInvCore (g : Grid) (start : Node) (q : List Entry)
    (v : Finset Node) (b : Branch) : Prop where
  nodup : (bkeys b).Nodup
  vis_eq : ∀ n, n ∈ v ↔ n ∈ bkeys b
  entries : ∀ e ∈ b, EntryOK g start b e
  ordered : BranchOrdered start b
  qmem : ∀ en ∈ q, en.2 = start ∨ en.2 ∈ bkeys b
  inb : ∀ n ∈ bkeys b, InBounds g n

/-- The full loop invariant: additionally, any relevant node is still on
the frontier or has all its valid successors visited. -/
structure AInv (g : Grid) (start : Node) (q : List Entry)
    (v : Finset Node) (b : Branch)
    extends AInvCore g start q v b : Prop where
  closed : ∀ n, (n = start ∨ n ∈ v) →
    (n ∈ qnodes q ∨ ∀ a ∈ valid_actions g n, applyA n a ∈ v)

/-- The finite set of in-bounds cells. -/
def inbFinset (g : Grid) : Finset Node :=
  Finset.Icc (0 : ℤ) ((g.nrows : ℤ) - 1) ×ˢ
    Finset.Icc (0 : ℤ) ((g.ncols : ℤ) - 1)

/-! ## Theorems -/

/-- Helper: on `exBlk12` nothing is reachable from `(0, 0)` but `(0, 0)`
itself (its single neighbour is occupied). -/
theorem reach_exBlk12 : ∀ x, Reach exBlk12 (0, 0) x → x = (0, 0) := by
  intro x hx
  induction hx with
  | refl => rfl
  | @step n a hr ha ih =>
    subst ih
    have hva : valid_actions exBlk12 (0, 0) = [] := by decide
    rw [hva] at ha
    cases ha

/-- C1: counterexample evidence.  For the single obstacle `exObstacle`
(centre `(5,5)`, half-extents 5, altitude reach 20) at altitude 5 with
safety distance 0, the claim demands the full block `0..9 × 0..9` be
occupied; `create_grid` marks the north column range correctly but
collapses the east range to the single column 0, because the east upper
bound uses `east - d_east + safety_distance` (instead of `+ d_east`) and
both east bounds are clipped with `north_size - 1`.  `spec_occupied` is
the spec's rasterization; cell `(0, 5)` diverges. -/
theorem C1_create_grid_east_slip :
    (create_grid [exObstacle] 5 0).grid.occ 0 0 = true ∧
    (create_grid [exObstacle] 5 0).grid.occ 9 0 = true ∧
    (create_grid [exObstacle] 5 0).grid.occ 0 5 = false ∧
    spec_occupied [exObstacle] 5 0 0 5 = true ∧
    (create_grid [exObstacle] 5 0).grid.nrows = 10 ∧
    (create_grid [exObstacle] 5 0).grid.ncols = 10 := by decide

/-- C2: counterexample.  On `exBlk12` the goal `(0, 1)` is unreachable
from `(0, 0)`, and `a_star` returns the plain pair `([], 0)` — no
distinguishable not-found signal accompanies the empty path; the `found`
flag is only printed. -/
theorem C2_counterexample :
    a_star exBlk12 hZero (0, 0) (0, 1) = .ok ([], 0) ∧
    ¬ Reach exBlk12 (0, 0) (0, 1) := by
  refine ⟨by decide, fun h => ?_⟩
  have := reach_exBlk12 _ h
  simp at this

/-- C3: counterexample.  After a failed search (`a_star` returned
`([], 0)`), `plan_path` still calls `send_waypoints()` (so a plan message
is sent), and the next state update from PLANNING unconditionally issues
a takeoff command — contradicting "no truncated plan is emitted or sent
... no partial flight command issued". -/
theorem C3_counterexample :
    ¬ ((plan_path_after_search ([], 0) 0 0).sent = false ∧
       (state_callback ⟨.PLANNING, true, false, false⟩).2 = []) := by decide

/-- C3 (amended): what the code actually does on a failed search: the
stored and sent waypoint list is empty (no truncated plan), but
`send_waypoints` is still invoked, the flight state remains PLANNING with
no failure signal, and the next state update unconditionally performs the
takeoff transition, issuing a takeoff command with an empty plan. -/
theorem C3_failed_search_behavior :
    ∀ (noff eoff : ℤ) (armed guided : Bool),
      plan_path_after_search ([], 0) noff eoff =
        ⟨[], true, .PLANNING⟩ ∧
      state_callback ⟨.PLANNING, true, armed, guided⟩ =
        (⟨.TAKEOFF, true, armed, guided⟩, [.takeoff]) :=
  fun _ _ _ _ => ⟨rfl, rfl⟩

/-- C4: evidence for the code bug.  In state DISARMING the guard
`~self.armed & ~self.guided` is a bitwise AND of Python ints `-1`/`-2`,
which is nonzero for every combination of the two booleans, so the
callback *always* transitions to MANUAL and stops the mission — even when
the vehicle still reports armed or guided. -/
theorem C4_disarming_always_fires :
    ∀ armed guided : Bool,
      state_callback ⟨.DISARMING, true, armed, guided⟩ =
        (⟨.MANUAL, false, armed, guided⟩, [.stop]) := by decide

/-- C5: counterexample.  With `start = goal` — an in-bounds, trivially
reachable goal — `a_star` raises a KeyError instead of returning the
zero-length path, so the claim fails without the extra precondition
`start ≠ goal`. -/
theorem C5_counterexample :
    a_star exFree12 hZero (0, 0) (0, 0) = .error .keyError ∧
    InBounds exFree12 (0, 0) ∧ Reach exFree12 (0, 0) (0, 0) :=
  ⟨by decide, by decide, .refl⟩

/-- C6: counterexample.  On `exPathC6` the collinear triple at positions
2..4 makes the source call `pruned_path.remove((0, 0))`, which deletes the
*first* occurrence of `(0, 0)` — the head of the list — so the output does
not preserve the first element. -/
theorem C6_counterexample :
    prune_path_list id exPathC6 = [(5, 7), (1, 0), (0, 0), (3, 0)] ∧
    exPathC6.head? = some (0, 0) := by decide

/-- C7: counterexample.  In the traced `a_star` run on the free 3×3 grid
from `(1, 1)` to `(0, 0)` with the zero heuristic, the entries
`(1, (1, 0))` and `(1, (0, 1))` have equal `g+h` priority 1 and are
enqueued at positions 1 and 3 of the push order, but `(1, (0, 1))` is
dequeued *before* `(1, (1, 0))` (pop positions 1 and 2): the heap breaks
the tie by comparing the cell tuples, not by insertion order. -/
theorem C7_counterexample :
    aStarTrace exFree33 hZero (1, 1) (0, 0) = .ok (true, exPushes, exPops) ∧
    exPushes.indexOf ((1 : ℚ), ((1 : ℤ), (0 : ℤ))) = 1 ∧
    exPushes.indexOf ((1 : ℚ), ((0 : ℤ), (1 : ℤ))) = 3 ∧
    exPops.indexOf ((1 : ℚ), ((0 : ℤ), (1 : ℤ))) = 1 ∧
    exPops.indexOf ((1 : ℚ), ((1 : ℤ), (0 : ℤ))) = 2 := by decide

/-- C8: counterexample.  One pruning pass over `exPathC8` removes `(1,1)`
(the triple `((1,0), (1,1), (1,0))` has two equal rows, determinant 0) and
leaves `[(0,0), (1,0), (1,0)]`, which still contains an exactly-collinear
triple; a second pass removes another point, so `prune_path` is not
idempotent. -/
theorem C8_counterexample :
    prune_path_list id exPathC8 = [(0, 0), (1, 0), (1, 0)] ∧
    prune_path_list id (prune_path_list id exPathC8) = [(0, 0), (1, 0)] := by
  decide

/-- C9: with `start = goal` the start node is popped first, it equals the
goal, `found` is set — and the retracing code immediately evaluates
`branch[goal]` on the still-empty dictionary, a KeyError.  (The proof
does not even need the in-bounds hypothesis; it is kept because the claim
states it.) -/
theorem C9_start_eq_goal_raises :
    ∀ (g : Grid) (h : Node → Node → ℚ) (s : Node), InBounds g s →
      a_star g h s s = .error .keyError := by
  intro g h s _
  have hf : g.nrows * g.ncols + 2 = (g.nrows * g.ncols + 1) + 1 := rfl
  unfold a_star
  rw [hf]
  simp [aStarLoop, heappop]

/-- Witness for C9 at a concrete grid and start cell. -/
theorem C9_start_eq_goal_raises_witness :
    InBounds exFree12 (0, 0) ∧
    a_star exFree12 hZero (0, 0) (0, 0) = .error .keyError :=
  ⟨by decide, C9_start_eq_goal_raises exFree12 hZero (0, 0) (by decide)⟩

/-- C10: `prune_path(None)` skips the guarded block and then returns the
unassigned local `pruned_path`, an UnboundLocalError; on every actual
list it returns normally. -/
theorem C10_prune_none_raises :
    prune_path (fun p : Pt => p) none = .error .unboundLocal ∧
    ∀ l : List Pt, prune_path (fun p => p) (some l) =
      .ok (prune_path_list (fun p => p) l) :=
  ⟨rfl, fun _ => rfl⟩

/-! ### `prune_path` loop invariants (C6) -/

section PruneLemmas

variable {α : Type} [DecidableEq α] (toQ : α → Pt)

/-- The pruning loop only ever deletes elements. -/
theorem pruneLoop_sublist : ∀ (fuel : ℕ) (l : List α) (i : ℕ),
    List.Sublist (pruneLoop toQ fuel l i) l := by
  intro fuel
  induction fuel with
  | zero => intro l i; exact List.Sublist.refl l
  | succ fuel ih =>
    intro l i
    rw [pruneLoop]
    split
    · split
      · exact (ih _ i).trans (List.erase_sublist _ l)
      · exact ih l (i + 1)
    · exact List.Sublist.refl l

/-- The pruning loop never empties a nonempty list: a removal only
happens when at least three elements remain. -/
theorem pruneLoop_ne_nil : ∀ (fuel : ℕ) (l : List α) (i : ℕ),
    l ≠ [] → pruneLoop toQ fuel l i ≠ [] := by
  intro fuel
  induction fuel with
  | zero => intro l i hl; exact hl
  | succ fuel ih =>
    intro l i hl
    rw [pruneLoop]
    split
    · rename_i hlen
      split
      · refine ih _ i ?_
        have hmem : l.get ⟨i + 1, by omega⟩ ∈ l := List.get_mem l _ _
        have : (l.erase (l.get ⟨i + 1, by omega⟩)).length = l.length - 1 :=
          List.length_erase_of_mem hmem
        intro hnil
        rw [hnil] at this
        simp at this
        omega
      · exact ih l (i + 1) hl
    · exact hl

/-- Erasing the first occurrence of an element that also occurs before the
last position leaves the last element in place. -/
theorem erase_getLast_eq (l : List α) (k : ℕ) (hk : k + 1 < l.length) :
    (l.erase (l.get ⟨k, by omega⟩)).getLast? = l.getLast? := by
  have hne : l ≠ [] := by intro h; subst h; simp at hk
  have hsplit : l.dropLast ++ [l.getLast hne] = l := List.dropLast_append_getLast hne
  have hmem : l.get ⟨k, by omega⟩ ∈ l.dropLast := by
    have hlen : l.dropLast.length = l.length - 1 := List.length_dropLast l
    have hget : l.dropLast.get ⟨k, by omega⟩ = l.get ⟨k, by omega⟩ := by
      simp [List.getElem_dropLast l k (by omega)]
    rw [← hget]
    exact List.get_mem _ _ _
  calc (l.erase (l.get ⟨k, by omega⟩)).getLast?
      = ((l.dropLast ++ [l.getLast hne]).erase (l.get ⟨k, by omega⟩)).getLast? := by
        rw [hsplit]
    _ = (l.dropLast.erase (l.get ⟨k, by omega⟩) ++ [l.getLast hne]).getLast? := by
        rw [List.erase_append_left _ hmem]
    _ = some (l.getLast hne) := by simp
    _ = l.getLast? := (List.getLast?_eq_getLast l hne).symm

/-- The pruning loop preserves the last element. -/
theorem pruneLoop_getLast_eq : ∀ (fuel : ℕ) (l : List α) (i : ℕ),
    (pruneLoop toQ fuel l i).getLast? = l.getLast? := by
  intro fuel
  induction fuel with
  | zero => intro l i; rfl
  | succ fuel ih =>
    intro l i
    rw [pruneLoop]
    split
    · rename_i hlen
      split
      · rw [ih]
        exact erase_getLast_eq l (i + 1) (by omega)
      · exact ih l (i + 1)
    · rfl

/-- On a duplicate-free list the pruning loop preserves the head: the
erased value sits at position `i + 1 ≥ 1` and, without duplicates, its
first occurrence is not the head. -/
theorem pruneLoop_head_eq : ∀ (fuel : ℕ) (l : List α) (i : ℕ),
    l.Nodup → (pruneLoop toQ fuel l i).head? = l.head? := by
  intro fuel
  induction fuel with
  | zero => intro l i _; rfl
  | succ fuel ih =>
    intro l i hnd
    rw [pruneLoop]
    split
    · rename_i hlen
      split
      · rw [ih _ i (hnd.erase _)]
        -- erasing `l.get ⟨i+1⟩` from the nodup `l` keeps the head
        match l, hlen, hnd with
        | a :: t, hlen, hnd =>
          have hx : (a :: t).get ⟨i + 1, by omega⟩ = t.get ⟨i, by simp at hlen; omega⟩ := rfl
          have hxa : t.get ⟨i, by simp at hlen; omega⟩ ≠ a := by
            intro he
            have hmem : a ∈ t := he ▸ List.get_mem t _ _
            exact (List.nodup_cons.mp hnd).1 hmem
          rw [hx, List.erase_cons_tail]
          · simp
          · simpa using (Ne.symm hxa)
      · exact ih l (i + 1) hnd
    · rfl

end PruneLemmas

/-- C6 (amended): the output of `prune_path` is a subsequence of the
input, preserves the last element, and is nonempty whenever the input is;
the *first* element is preserved provided the input contains no duplicate
point (in general `list.remove` deletes the first occurrence of the value
at position `i + 1`, which may be the head). -/
theorem C6_prune_invariants :
    ∀ path : List Pt,
      List.Sublist (prune_path_list id path) path ∧
      (path ≠ [] → prune_path_list id path ≠ []) ∧
      (prune_path_list id path).getLast? = path.getLast? ∧
      (path.Nodup → (prune_path_list id path).head? = path.head?) := by
  intro path
  exact ⟨pruneLoop_sublist id _ path 0,
         fun h => pruneLoop_ne_nil id _ path 0 h,
         pruneLoop_getLast_eq id _ path 0,
         fun h => pruneLoop_head_eq id _ path 0 h⟩

/-- Witness for C6 at the concrete path `[(0,0), (1,1), (2,3)]`. -/
theorem C6_prune_invariants_witness :
    ([((0 : ℚ), (0 : ℚ)), (1, 1), (2, 3)] : List Pt) ≠ [] ∧
    ([((0 : ℚ), (0 : ℚ)), (1, 1), (2, 3)] : List Pt).Nodup ∧
    prune_path_list id [((0 : ℚ), (0 : ℚ)), (1, 1), (2, 3)] ≠ [] ∧
    (prune_path_list id [((0 : ℚ), (0 : ℚ)), (1, 1), (2, 3)]).head? =
      some (0, 0) := by
  have h := C6_prune_invariants [((0 : ℚ), (0 : ℚ)), (1, 1), (2, 3)]
  refine ⟨by decide, by decide, h.2.1 (by decide), ?_⟩
  rw [h.2.2.2 (by decide)]
  rfl

/-! ### The Python tuple order on frontier entries (C7) -/

theorem nodeLtb_irrefl (a : Node) : nodeLtb a a = false := by
  simp [nodeLtb]

theorem entryLtb_irrefl (a : Entry) : entryLtb a a = false := by
  simp [entryLtb, nodeLtb]

theorem nodeLtb_trans {a b c : Node} (h1 : nodeLtb a b = true)
    (h2 : nodeLtb b c = true) : nodeLtb a c = true := by
  rcases a with ⟨x, y⟩; rcases b with ⟨u, v⟩; rcases c with ⟨s, t⟩
  simp [nodeLtb] at *
  omega

theorem nodeLtb_total (a b : Node) :
    nodeLtb a b = true ∨ nodeLtb b a = true ∨ a = b := by
  rcases a with ⟨x, y⟩; rcases b with ⟨u, v⟩
  simp [nodeLtb]
  omega

theorem entryLtb_trans {a b c : Entry} (h1 : entryLtb a b = true)
    (h2 : entryLtb b c = true) : entryLtb a c = true := by
  rcases a with ⟨p, n⟩; rcases b with ⟨q, m⟩; rcases c with ⟨r, k⟩
  simp only [entryLtb, Bool.or_eq_true, Bool.and_eq_true, decide_eq_true_eq] at *
  rcases h1 with h1 | ⟨h1, h1n⟩ <;> rcases h2 with h2 | ⟨h2, h2n⟩
  · exact Or.inl (lt_trans h1 h2)
  · exact Or.inl (h2 ▸ h1)
  · exact Or.inl (h1 ▸ h2)
  · exact Or.inr ⟨h1.trans h2, nodeLtb_trans h1n h2n⟩

theorem entryLtb_total (a b : Entry) :
    entryLtb a b = true ∨ entryLtb b a = true ∨ a = b := by
  rcases a with ⟨p, n⟩; rcases b with ⟨q, m⟩
  simp only [entryLtb, Bool.or_eq_true, Bool.and_eq_true, decide_eq_true_eq,
    Prod.mk.injEq]
  rcases lt_trichotomy p q with hpq | hpq | hpq
  · exact Or.inl (Or.inl hpq)
  · rcases nodeLtb_total n m with hn | hn | hn
    · exact Or.inl (Or.inr ⟨hpq, hn⟩)
    · exact Or.inr (Or.inl (Or.inr ⟨hpq.symm, hn⟩))
    · exact Or.inr (Or.inr ⟨hpq, hn⟩)
  · exact Or.inr (Or.inl (Or.inl hpq))

/-- Transitivity of the non-strict order `¬·<·` induced by `entryLtb`. -/
theorem entryLtb_le_trans {a b c : Entry} (hab : entryLtb b a = false)
    (hbc : entryLtb c b = false) : entryLtb c a = false := by
  by_contra hca
  rw [Bool.not_eq_false] at hca
  rcases entryLtb_total b c with hbc' | hcb | heq
  · exact absurd (entryLtb_trans hbc' hca) (by rw [hab]; simp)
  · exact absurd hcb (by rw [hbc]; simp)
  · subst heq
    exact absurd hca (by rw [hab]; simp)

/-- In a list satisfying the `heapq` invariant, no element compares
strictly below the root. -/
theorem isMinHeap_root (l : List Entry) (hh : isMinHeapB l = true) :
    ∀ j, j < l.length →
      entryLtb (l.getD j dEntry) (l.getD 0 dEntry) = false := by
  intro j
  induction j using Nat.strong_induction_on with
  | _ j ih =>
    intro hj
    by_cases h0 : j = 0
    · subst h0; exact entryLtb_irrefl _
    · have hpar : (j - 1) / 2 < j := by omega
      have hparlen : (j - 1) / 2 < l.length := lt_trans hpar hj
      have hstep : entryLtb (l.getD j dEntry)
          (l.getD ((j - 1) / 2) dEntry) = false := by
        rw [isMinHeapB, List.all_eq_true] at hh
        have := hh j (List.mem_range.mpr hj)
        simpa [h0] using this
      exact entryLtb_le_trans (ih _ hpar hparlen) hstep

/-- `heappop` on a nonempty list hands back its element at index 0. -/
theorem heappop_fst (l : List Entry) (x : Entry) (rest : List Entry)
    (hpop : heappop l = some (x, rest)) : x = l.getD 0 dEntry := by
  match l, hpop with
  | [a], hpop =>
    simp [heappop] at hpop
    simp [hpop.1.symm]
  | a :: b :: t, hpop =>
    rw [heappop] at hpop
    rcases hlast : (a :: b :: t).getLast? with _ | lastelt
    · simp [hlast] at hpop
    · rw [hlast] at hpop
      have hne : ((a :: b :: t).dropLast).isEmpty = false := by
        have : (a :: b :: t).dropLast.length = t.length + 1 := by simp
        rcases hdl : (a :: b :: t).dropLast with _ | ⟨c, r⟩
        · rw [hdl] at this; simp at this
        · simp
      simp only [hne, Bool.false_eq_true, if_false] at hpop
      have : x = (a :: b :: t).dropLast.getD 0 dEntry := by
        cases hpop'' : hpop
        · rfl
      rw [this]
      rcases hdl : (a :: b :: t).dropLast with _ | ⟨c, r⟩
      · have : (a :: b :: t).dropLast.length = t.length + 1 := by simp
        rw [hdl] at this; simp at this
      · have : c = a := by
          have := congrArg (fun l => List.getD l 0 dEntry) hdl
          simpa [List.getD] using this.symm
        simp [this]

/-- C7 (amended): the frontier is a binary min-heap ordered by the Python
lexicographic comparison of `(priority, cell)` tuples; whenever the heap
invariant holds, `heappop` returns an entry that no frontier entry
compares strictly below — in particular, among entries whose `g+h`
priorities tie, none has a lexicographically smaller cell than the
dequeued one.  Tie-breaking therefore follows cell order, not insertion
order. -/
theorem C7_heappop_min (l : List Entry) (x : Entry) (rest : List Entry)
    (hheap : isMinHeapB l = true) (hpop : heappop l = some (x, rest)) :
    ∀ y ∈ l, entryLtb y x = false ∧
      (y.1 = x.1 → nodeLtb y.2 x.2 = false) := by
  intro y hy
  have hx : x = l.getD 0 dEntry := heappop_fst l x rest hpop
  rcases List.mem_iff_get.mp hy with ⟨⟨j, hj⟩, hget⟩
  have hyj : y = l.getD j dEntry := by
    rw [List.getD_eq_getElem l dEntry hj]
    rw [← hget]
    simp
  have hmain : entryLtb y x = false := by
    rw [hx, hyj]
    exact isMinHeap_root l hheap j hj
  refine ⟨hmain, fun hpri => ?_⟩
  rcases x with ⟨p, n⟩; rcases y with ⟨q, m⟩
  simp only at hpri
  subst hpri
  simpa [entryLtb, nodeLtb_irrefl] using hmain

/-- Witness for C7 on the all-ties frontier `exHeap`: the dequeued entry
is `(1, (0, 1))`, and no tied entry has a lexicographically smaller
cell. -/
theorem C7_heappop_min_witness :
    isMinHeapB exHeap = true ∧
    ∀ y ∈ exHeap, entryLtb y ((1 : ℚ), ((0 : ℤ), (1 : ℤ))) = false ∧
      (y.1 = 1 → nodeLtb y.2 ((0 : ℤ), (1 : ℤ)) = false) :=
  ⟨by decide, fun y hy =>
    C7_heappop_min exHeap ((1 : ℚ), ((0 : ℤ), (1 : ℤ)))
      [((1 : ℚ), ((1 : ℤ), (0 : ℤ))), ((1 : ℚ), ((1 : ℤ), (2 : ℤ)))]
      (by decide) (by decide) y hy⟩

/-! ### Exact collinearity geometry (C8) -/

/-- `det3` of a triple with coincident last two rows vanishes. -/
theorem det3_self_right (P B : Pt) : det3 P B B = 0 := by
  rcases P with ⟨a, b⟩; rcases B with ⟨c, d⟩
  simp [det3]; ring

/-- `det3 A B C` is the cross product of the edge vectors at `A`. -/
theorem det3_cross (A B C : Pt) :
    det3 A B C = cross (B.1 - A.1, B.2 - A.2) (C.1 - A.1, C.2 - A.2) := by
  rcases A with ⟨a, b⟩; rcases B with ⟨c, d⟩; rcases C with ⟨e, f⟩
  simp [det3, cross]; ring

/-- Two parallel 2D vectors with the first nonzero are proportional. -/
theorem cross_eq_zero_parallel (u v : Pt) (hc : cross u v = 0)
    (hu : u ≠ (0, 0)) : ∃ s : ℚ, v = (s * u.1, s * u.2) := by
  rcases u with ⟨u1, u2⟩; rcases v with ⟨v1, v2⟩
  simp only [cross] at hc
  by_cases h1 : u1 = 0
  · have h2 : u2 ≠ 0 := by
      intro h2; exact hu (by simp [h1, h2])
    refine ⟨v2 / u2, ?_⟩
    have hv1 : v1 = 0 := by
      have : u2 * v1 = 0 := by subst h1; linarith
      rcases mul_eq_zero.mp this with h | h
      · exact absurd h h2
      · exact h
    simp only [Prod.mk.injEq]
    constructor
    · rw [hv1, h1]; ring
    · field_simp
  · refine ⟨v1 / u1, ?_⟩
    simp only [Prod.mk.injEq]
    constructor
    · field_simp
    · field_simp
      nlinarith [hc]

/-- Replacing the third point of a nondegenerate triple by a point
collinear with its last edge scales the determinant by a nonzero factor:
if `B, X, Y` are collinear, `P, B, X` are not, and `Y ≠ B`, then
`P, B, Y` are not collinear either. -/
theorem det3_third_point {P B X Y : Pt} (hBXY : det3 B X Y = 0)
    (hPBX : det3 P B X ≠ 0) (hYB : Y ≠ B) : det3 P B Y ≠ 0 := by
  have hXB : X ≠ B := by
    intro h; subst h; exact hPBX (det3_self_right P X)
  have hu : ((X.1 - B.1, X.2 - B.2) : Pt) ≠ (0, 0) := by
    intro h
    apply hXB
    have h1 := congrArg Prod.fst h
    have h2 := congrArg Prod.snd h
    simp at h1 h2
    exact Prod.ext (by linarith) (by linarith)
  have hcross : cross (X.1 - B.1, X.2 - B.2) (Y.1 - B.1, Y.2 - B.2) = 0 := by
    rw [← det3_cross]; exact hBXY
  rcases cross_eq_zero_parallel _ _ hcross hu with ⟨s, hs⟩
  have hY1 : Y.1 - B.1 = s * (X.1 - B.1) := by
    have := congrArg Prod.fst hs; simpa using this
  have hY2 : Y.2 - B.2 = s * (X.2 - B.2) := by
    have := congrArg Prod.snd hs; simpa using this
  have hsne : s ≠ 0 := by
    intro h0
    apply hYB
    rw [h0] at hY1 hY2
    simp at hY1 hY2
    exact Prod.ext (by linarith) (by linarith)
  have hval : det3 P B Y = s * det3 P B X := by
    rcases P with ⟨p1, p2⟩; rcases B with ⟨b1, b2⟩
    rcases X with ⟨x1, x2⟩; rcases Y with ⟨y1, y2⟩
    simp only at hY1 hY2
    have hy1 : y1 = b1 + s * (x1 - b1) := by linarith
    have hy2 : y2 = b2 + s * (x2 - b2) := by linarith
    subst hy1; subst hy2
    simp only [det3]
    ring
  rw [hval]
  exact mul_ne_zero hsne hPBX

/-- On integer points `det3` is (the cast of) an integer. -/
theorem det3_int {p1 p2 p3 : Pt} (h1 : IsIntPt p1) (h2 : IsIntPt p2)
    (h3 : IsIntPt p3) : ∃ z : ℤ, det3 p1 p2 p3 = (z : ℚ) := by
  rcases h1 with ⟨a1, b1, rfl⟩
  rcases h2 with ⟨a2, b2, rfl⟩
  rcases h3 with ⟨a3, b3, rfl⟩
  refine ⟨a1 * (b2 - b3) - b1 * (a2 - a3) + (a2 * b3 - b2 * a3), ?_⟩
  simp only [det3]
  push_cast
  ring

/-- On integer points the `1e-6` tolerance is exact collinearity. -/
theorem collinearity_check_int {p1 p2 p3 : Pt} (h1 : IsIntPt p1)
    (h2 : IsIntPt p2) (h3 : IsIntPt p3) :
    collinearity_check p1 p2 p3 = true ↔ det3 p1 p2 p3 = 0 := by
  rcases det3_int h1 h2 h3 with ⟨z, hz⟩
  rw [collinearity_check, hz]
  constructor
  · intro h
    rw [decide_eq_true_eq] at h
    have hzabs : |(z : ℚ)| < 1 := lt_trans h (by norm_num)
    have habs : |z| < 1 := by exact_mod_cast hzabs
    have hb := abs_lt.mp habs
    have : z = 0 := by omega
    simp [this]
  · intro h
    have : z = 0 := by exact_mod_cast h
    subst this
    norm_num

/-- `collAt` in terms of in-range reads. -/
theorem collAt_eq_get (l : List Pt) (j : ℕ) (h : j + 2 < l.length) :
    collAt l j = collinearity_check (l.get ⟨j, by omega⟩)
      (l.get ⟨j + 1, by omega⟩) (l.get ⟨j + 2, by omega⟩) := by
  have h0 : j < l.length := by omega
  have h1 : j + 1 < l.length := by omega
  simp [collAt, List.getD, List.getElem?_eq_getElem h0,
    List.getElem?_eq_getElem h1, List.getElem?_eq_getElem h]

/-- On a duplicate-free list, `list.remove(l[k])` removes exactly index
`k`. -/
theorem erase_get_nodup {α : Type} [DecidableEq α] (l : List α)
    (hl : l.Nodup) (k : ℕ) (hk : k < l.length) :
    l.erase (l.get ⟨k, hk⟩) = l.eraseIdx k := by
  have h1 : l.indexOf (l.get ⟨k, hk⟩) = k := by
    have := List.indexOf_getElem hl k hk
    simpa using this
  rw [← List.eraseIdx_indexOf_eq_erase, h1]

/-- Main invariant of the pruning pass on duplicate-free integer paths:
once the loop has gone by, no consecutive triple of the remaining list is
collinear.  The prefix hypothesis states that all triples strictly left
of the window have already been checked. -/
theorem pruneLoop_all_noColl :
    ∀ (fuel : ℕ) (l : List Pt) (i : ℕ),
      l.Nodup → (∀ p ∈ l, IsIntPt p) → 2 * l.length ≤ fuel + i →
      (∀ j, j + 2 < l.length → j < i → collAt l j = false) →
      ∀ j, j + 2 < (pruneLoop id fuel l i).length →
        collAt (pruneLoop id fuel l i) j = false := by
  intro fuel
  induction fuel with
  | zero =>
    intro l i _ _ hfuel hpre j hj
    rw [pruneLoop] at hj ⊢
    exact hpre j hj (by omega)
  | succ fuel ih =>
    intro l i hnd hint hfuel hpre j hj
    rw [pruneLoop] at hj ⊢
    by_cases hwin : i + 2 < l.length
    · rw [dif_pos hwin] at hj ⊢
      by_cases hc : collinearity_check (id (l.get ⟨i, by omega⟩))
          (id (l.get ⟨i + 1, by omega⟩)) (id (l.get ⟨i + 2, by omega⟩)) = true
      · rw [if_pos hc] at hj ⊢
        rw [erase_get_nodup l hnd (i + 1) (by omega)] at hj ⊢
        have hlen2 : (l.eraseIdx (i + 1)).length = l.length - 1 := by
          rw [List.length_eraseIdx]
          simp [show i + 1 < l.length by omega]
        have hsub : List.Sublist (l.eraseIdx (i + 1)) l :=
          List.eraseIdx_sublist l (i + 1)
        refine ih (l.eraseIdx (i + 1)) i (hnd.sublist hsub)
          (fun p hp => hint p (hsub.subset hp)) (by omega) ?_ j hj
        -- the prefix triples of the shortened list are still non-collinear
        intro k hk hki
        have hk2 : k + 2 < l.length := by omega
        rcases Nat.lt_or_ge (k + 2) (i + 1) with hcase | hcase
        · -- window fully left of the removed index: unchanged entries
          have e0 : (l.eraseIdx (i + 1)).get ⟨k, by omega⟩ =
              l.get ⟨k, by omega⟩ := by
            simpa using List.getElem_eraseIdx_of_lt l (i + 1) k (by omega) (by omega)
          have e1 : (l.eraseIdx (i + 1)).get ⟨k + 1, by omega⟩ =
              l.get ⟨k + 1, by omega⟩ := by
            simpa using List.getElem_eraseIdx_of_lt l (i + 1) (k + 1) (by omega) (by omega)
          have e2 : (l.eraseIdx (i + 1)).get ⟨k + 2, by omega⟩ =
              l.get ⟨k + 2, by omega⟩ := by
            simpa using List.getElem_eraseIdx_of_lt l (i + 1) (k + 2) (by omega) (by omega)
          rw [collAt_eq_get _ k hk, e0, e1, e2]
          have hh := hpre k hk2 hki
          rw [collAt_eq_get l k hk2] at hh
          exact hh
        · -- k + 2 ≥ i + 1 and k < i force k = i - 1: the one reshaped
          -- triple (l[i-1], l[i], l[i+2]); exact-collinearity geometry
          have hk_eq : k + 1 = i := by omega
          have e0 : (l.eraseIdx (i + 1)).get ⟨k, by omega⟩ =
              l.get ⟨k, by omega⟩ := by
            simpa using List.getElem_eraseIdx_of_lt l (i + 1) k (by omega) (by omega)
          have e1 : (l.eraseIdx (i + 1)).get ⟨k + 1, by omega⟩ =
              l.get ⟨k + 1, by omega⟩ := by
            simpa using List.getElem_eraseIdx_of_lt l (i + 1) (k + 1) (by omega) (by omega)
          have e2 : (l.eraseIdx (i + 1)).get ⟨k + 2, by omega⟩ =
              l.get ⟨k + 3, by omega⟩ := by
            simpa using List.getElem_eraseIdx_of_ge l (i + 1) (k + 2)
              (by omega) (by omega)
          rw [collAt_eq_get _ k hk, e0, e1, e2]
          -- names: P = l[k], B = l[k+1] = l[i], X = l[i+1], Y = l[i+2] = l[k+3]
          have hPBX : collinearity_check (l.get ⟨k, by omega⟩)
              (l.get ⟨k + 1, by omega⟩) (l.get ⟨k + 2, by omega⟩) = false := by
            have := hpre k (by omega) (by omega)
            rwa [collAt_eq_get l k (by omega)] at this
          have hint' : ∀ (m : ℕ) (hm : m < l.length), IsIntPt (l.get ⟨m, hm⟩) :=
            fun m hm => hint _ (List.get_mem l _ _)
          have hdPBX : det3 (l.get ⟨k, by omega⟩) (l.get ⟨k + 1, by omega⟩)
              (l.get ⟨k + 2, by omega⟩) ≠ 0 := by
            intro h0
            rw [(collinearity_check_int (hint' _ _) (hint' _ _)
              (hint' _ _)).mpr h0] at hPBX
            cases hPBX
          have hdBXY : det3 (l.get ⟨k + 1, by omega⟩) (l.get ⟨k + 2, by omega⟩)
              (l.get ⟨k + 3, by omega⟩) = 0 := by
            apply (collinearity_check_int (hint' _ _) (hint' _ _)
              (hint' _ _)).mp
            have hi1 : (⟨k + 1, by omega⟩ : Fin l.length) = ⟨i, by omega⟩ := by
              simp [hk_eq]
            have hi2 : (⟨k + 2, by omega⟩ : Fin l.length) = ⟨i + 1, by omega⟩ := by
              simp [show k + 2 = i + 1 by omega]
            have hi3 : (⟨k + 3, by omega⟩ : Fin l.length) = ⟨i + 2, by omega⟩ := by
              simp [show k + 3 = i + 2 by omega]
            rw [hi1, hi2, hi3]
            simpa using hc
          have hYB : l.get ⟨k + 3, by omega⟩ ≠ l.get ⟨k + 1, by omega⟩ := by
            intro h
            have := (List.Nodup.getElem_inj_iff hnd).mp (by simpa using h)
            omega
          have := det3_third_point hdBXY hdPBX hYB
          rw [collinearity_check]
          simp only [decide_eq_false_iff_not, not_lt]
          rcases det3_int (hint' k (by omega)) (hint' (k + 1) (by omega))
            (hint' (k + 3) (by omega)) with ⟨z, hz⟩
          rw [hz] at this ⊢
          have hzne : z ≠ 0 := by
            intro h0; apply this; rw [h0]; norm_num
          have : (1 : ℚ) ≤ |(z : ℚ)| := by
            have h1z : 1 ≤ |z| := Int.one_le_abs (by omega)
            exact_mod_cast h1z
          calc (1 : ℚ) / 1000000 ≤ 1 := by norm_num
          _ ≤ |(z : ℚ)| := this
      · rw [if_neg hc] at hj ⊢
        refine ih l (i + 1) hnd hint (by omega) ?_ j hj
        intro k hk hki
        rcases Nat.lt_or_ge k i with hki' | hki'
        · exact hpre k hk hki'
        · have : k = i := by omega
          subst this
          rw [collAt_eq_get l k hk]
          simpa using (Bool.not_eq_true _).mp hc
    · rw [dif_neg hwin] at hj ⊢
      exact hpre j hj (by omega)

/-- A list with no collinear consecutive triple passes through the
pruning loop unchanged. -/
theorem pruneLoop_id_of_noColl :
    ∀ (fuel : ℕ) (l : List Pt) (i : ℕ),
      (∀ j, j + 2 < l.length → collAt l j = false) →
      pruneLoop id fuel l i = l := by
  intro fuel
  induction fuel with
  | zero => intro l i _; rfl
  | succ fuel ih =>
    intro l i hno
    rw [pruneLoop]
    by_cases hwin : i + 2 < l.length
    · rw [dif_pos hwin]
      have hc : collinearity_check (id (l.get ⟨i, by omega⟩))
          (id (l.get ⟨i + 1, by omega⟩)) (id (l.get ⟨i + 2, by omega⟩)) = false := by
        have := hno i hwin
        rwa [collAt_eq_get l i hwin] at this
      rw [hc]
      simp only [Bool.false_eq_true, if_false]
      exact ih l (i + 1) hno
    · rw [dif_neg hwin]

/-- C8 (amended): `prune_path` is idempotent on paths of pairwise
distinct integer-coordinate points — there the `1e-6` tolerance coincides
with exact collinearity, and the surviving list has no collinear
consecutive triple, so a second pass removes nothing. -/
theorem C8_idempotent_on_nodup_int (path : List Pt) (hnd : path.Nodup)
    (hint : ∀ p ∈ path, IsIntPt p) :
    prune_path_list id (prune_path_list id path) = prune_path_list id path := by
  have hno : ∀ j, j + 2 < (prune_path_list id path).length →
      collAt (prune_path_list id path) j = false := by
    intro j hj
    exact pruneLoop_all_noColl (2 * path.length) path 0 hnd hint (by omega)
      (fun k _ hk => absurd hk (by omega)) j hj
  unfold prune_path_list
  exact pruneLoop_id_of_noColl _ _ _ hno

/-- Witness for C8 on the duplicate-free integer path
`[(0,0), (3,7), (1,0)]`. -/
theorem C8_idempotent_on_nodup_int_witness :
    ([((0 : ℚ), (0 : ℚ)), (3, 7), (1, 0)] : List Pt).Nodup ∧
    prune_path_list id (prune_path_list id
        [((0 : ℚ), (0 : ℚ)), (3, 7), (1, 0)]) =
      prune_path_list id [((0 : ℚ), (0 : ℚ)), (3, 7), (1, 0)] :=
  ⟨by decide, C8_idempotent_on_nodup_int _ (by decide)
    (by
      intro p hp
      simp only [List.mem_cons, List.not_mem_nil, or_false] at hp
      rcases hp with rfl | rfl | rfl
      · exact ⟨0, 0, by norm_num⟩
      · exact ⟨3, 7, by norm_num⟩
      · exact ⟨1, 0, by norm_num⟩)⟩

/-! ### The heap operations permute the frontier (C2/C5) -/

/-- Writing `a` at position `k` is, up to permutation, replacing the
element at `k`. -/
theorem set_perm_cons_eraseIdx {α : Type} :
    ∀ (l : List α) (k : ℕ), k < l.length → ∀ (a : α),
      List.Perm (l.set k a) (a :: l.eraseIdx k) := by
  intro l
  induction l with
  | nil => intro k hk; simp at hk
  | cons b t ih =>
    intro k hk a
    cases k with
    | zero => simp
    | succ k =>
      simp only [List.set_cons_succ, List.eraseIdx_cons_succ]
      exact ((ih k (by simpa using hk) a).cons b).trans (List.Perm.swap a b _)

/-- Two writes at distinct positions can exchange their values, up to
permutation. -/
theorem set_set_perm {α : Type} :
    ∀ (l : List α) (i j : ℕ), i < l.length → j < l.length → i ≠ j →
      ∀ (a b : α), List.Perm ((l.set i a).set j b) ((l.set i b).set j a) := by
  intro l
  induction l with
  | nil => intro i j hi; simp at hi
  | cons c t ih =>
    intro i j hi hj hij a b
    cases i with
    | zero =>
      cases j with
      | zero => exact absurd rfl hij
      | succ j =>
        simp only [List.set_cons_zero, List.set_cons_succ]
        have h1 := set_perm_cons_eraseIdx t j (by simpa using hj) b
        have h2 := set_perm_cons_eraseIdx t j (by simpa using hj) a
        exact ((h1.cons a).trans ((List.Perm.swap b a _).trans
          (h2.symm.cons b)))
    | succ i =>
      cases j with
      | zero =>
        simp only [List.set_cons_zero, List.set_cons_succ]
        have h1 := set_perm_cons_eraseIdx t i (by simpa using hi) a
        have h2 := set_perm_cons_eraseIdx t i (by simpa using hi) b
        exact ((h1.cons b).trans ((List.Perm.swap a b _).trans
          (h2.symm.cons a)))
      | succ j =>
        simp only [List.set_cons_succ]
        exact (ih i j (by simpa using hi) (by simpa using hj)
          (by omega) a b).cons c

/-- Writing back the value already stored at a position is the
identity. -/
theorem set_getD_self (l : List Entry) (k : ℕ) (hk : k < l.length) :
    l.set k (l.getD k dEntry) = l := by
  apply List.ext_getElem
  · simp
  · intro i h1 h2
    by_cases hik : k = i
    · subst hik
      rw [List.getElem_set_self, List.getD_eq_getElem l dEntry hk]
    · rw [List.getElem_set_ne hik]

/-- `_siftdown` permutes the array: its net effect is writing `newitem`
at the vacated position. -/
theorem siftdownLoop_perm :
    ∀ (fuel : ℕ) (heap : List Entry) (startpos pos : ℕ), pos < heap.length →
      ∀ item, List.Perm (siftdownLoop fuel heap startpos pos item)
        (heap.set pos item) := by
  intro fuel
  induction fuel with
  | zero => intro heap s pos hpos item; exact List.Perm.refl _
  | succ fuel ih =>
    intro heap s pos hpos item
    rw [siftdownLoop]
    by_cases hs : s < pos
    · rw [if_pos hs]
      by_cases hlt : entryLtb item (heap.getD ((pos - 1) / 2) dEntry) = true
      · rw [hlt]
        simp only [if_true]
        have hpp : (pos - 1) / 2 < heap.length := by omega
        have hperm := ih (heap.set pos (heap.getD ((pos - 1) / 2) dEntry)) s
          ((pos - 1) / 2) (by simpa using hpp) item
        refine hperm.trans ?_
        have hswap := set_set_perm heap pos ((pos - 1) / 2) hpos hpp
          (by omega) (heap.getD ((pos - 1) / 2) dEntry) item
        refine hswap.trans ?_
        have hsame : (heap.set pos item).getD ((pos - 1) / 2) dEntry =
            heap.getD ((pos - 1) / 2) dEntry := by
          rw [List.getD_eq_getElem _ dEntry (by simpa using hpp),
            List.getD_eq_getElem heap dEntry hpp,
            List.getElem_set_ne (by omega : pos ≠ (pos - 1) / 2)]
        rw [← hsame]
        rw [set_getD_self _ _ (by simpa using hpp)]
      · have hlt' : ¬ (entryLtb item (heap.getD ((pos - 1) / 2) dEntry) = true) := by
          rw [Bool.not_eq_true] at hlt
          rw [hlt]
          exact Bool.false_ne_true
        rw [if_neg hlt']
    · rw [if_neg hs]

/-- `heappush` permutes to consing the new item. -/
theorem heappush_perm (q : List Entry) (x : Entry) :
    List.Perm (heappush q x) (x :: q) := by
  rw [heappush]
  have hlen : q.length < (q ++ [x]).length := by simp
  refine (siftdownLoop_perm q.length (q ++ [x]) 0 q.length hlen x).trans ?_
  have : (q ++ [x]).set q.length x = q ++ [x] := by
    have hget : (q ++ [x]).get ⟨q.length, hlen⟩ = x := by
      simp
    rw [← hget]
    simp
  rw [this]
  exact List.perm_append_singleton x q

/-- The child-promotion phase of `_siftup`: the final hole position is in
range and writing any value there is, up to permutation, writing it at the
original hole. -/
theorem siftupLoop_perm :
    ∀ (fuel : ℕ) (heap : List Entry) (endpos pos : ℕ),
      pos < heap.length → endpos ≤ heap.length →
      (siftupLoop fuel heap endpos pos).1 < heap.length ∧
      (siftupLoop fuel heap endpos pos).2.length = heap.length ∧
      ∀ x, List.Perm ((siftupLoop fuel heap endpos pos).2.set
          (siftupLoop fuel heap endpos pos).1 x) (heap.set pos x) := by
  intro fuel
  induction fuel with
  | zero =>
    intro heap endpos pos hpos hend
    exact ⟨hpos, rfl, fun x => List.Perm.refl _⟩
  | succ fuel ih =>
    intro heap endpos pos hpos hend
    rw [siftupLoop]
    by_cases hchild : 2 * pos + 1 < endpos
    · rw [if_pos hchild]
      have hcrange : heapChild heap endpos pos < endpos := by
        rw [heapChild]
        split
        · rename_i hcond
          rw [Bool.and_eq_true] at hcond
          exact of_decide_eq_true hcond.1
        · exact hchild
      have hclen : heapChild heap endpos pos < heap.length :=
        lt_of_lt_of_le hcrange hend
      have hcpos : pos ≠ heapChild heap endpos pos := by
        rw [heapChild]; split <;> omega
      have hrec := ih (heap.set pos (heap.getD (heapChild heap endpos pos) dEntry))
        endpos (heapChild heap endpos pos)
        (by simpa using hclen) (by simpa using hend)
      refine ⟨by simpa using hrec.1, by simpa using hrec.2.1, fun x => ?_⟩
      refine (hrec.2.2 x).trans ?_
      refine (set_set_perm heap pos (heapChild heap endpos pos) hpos hclen
        hcpos _ x).trans ?_
      have hsame : (heap.set pos x).getD (heapChild heap endpos pos) dEntry =
          heap.getD (heapChild heap endpos pos) dEntry := by
        rw [List.getD_eq_getElem _ dEntry (by simpa using hclen),
          List.getD_eq_getElem heap dEntry hclen,
          List.getElem_set_ne hcpos]
      rw [← hsame]
      rw [set_getD_self _ _ (by simpa using hclen)]
    · rw [if_neg hchild]
      exact ⟨hpos, rfl, fun x => List.Perm.refl _⟩

/-- `_siftup` from the root permutes the array. -/
theorem siftup_perm (heap : List Entry) (h0 : 0 < heap.length) :
    List.Perm (siftup heap 0) heap := by
  rw [siftup]
  have h := siftupLoop_perm heap.length heap heap.length 0 h0 le_rfl
  have hsd := siftdownLoop_perm (siftupLoop heap.length heap heap.length 0).1
    (siftupLoop heap.length heap heap.length 0).2 0
    (siftupLoop heap.length heap heap.length 0).1
    (by rw [h.2.1]; exact h.1) (heap.getD 0 dEntry)
  refine hsd.trans ?_
  refine (h.2.2 (heap.getD 0 dEntry)).trans ?_
  rw [set_getD_self heap 0 h0]

/-- `heappop` returns `none` exactly on the empty frontier. -/
theorem heappop_none (q : List Entry) : heappop q = none ↔ q = [] := by
  cases q with
  | nil => simp [heappop]
  | cons a t =>
    constructor
    · intro h
      exfalso
      rcases hl : (a :: t).getLast? with _ | last
      · simp at hl
      · rw [heappop, hl] at h
        by_cases he : ((a :: t).dropLast).isEmpty <;> simp [he] at h
    · intro h; cases h

/-- `heappop` permutes: the popped entry together with the remaining
frontier is the old frontier. -/
theorem heappop_perm (q : List Entry) (x : Entry) (rest : List Entry)
    (hpop : heappop q = some (x, rest)) : List.Perm (x :: rest) q := by
  rw [heappop] at hpop
  rcases hl : q.getLast? with _ | last
  · rw [hl] at hpop; cases hpop
  · rw [hl] at hpop
    dsimp only at hpop
    have hqne : q ≠ [] := by
      intro h; subst h; simp at hl
    have hsplit : q.dropLast ++ [last] = q := by
      have h1 := List.dropLast_append_getLast hqne
      have h2 : q.getLast hqne = last := by
        rw [List.getLast?_eq_getLast q hqne] at hl
        exact Option.some.inj hl
      rw [h2] at h1; exact h1
    by_cases he : (q.dropLast).isEmpty
    · rw [if_pos he] at hpop
      have hx : x = last ∧ rest = [] := by
        have := Option.some.inj hpop
        exact ⟨congrArg Prod.fst this |>.symm, congrArg Prod.snd this |>.symm⟩
      rcases hx with ⟨rfl, rfl⟩
      have hdl : q.dropLast = [] := List.isEmpty_iff.mp he
      rw [hdl] at hsplit
      rw [← hsplit]
      exact List.Perm.refl _
    · rw [if_neg he] at hpop
      cases hdl : q.dropLast with
      | nil => rw [hdl] at he; simp at he
      | cons d ds =>
        rw [hdl] at hpop
        have hinj := Option.some.inj hpop
        have hx : x = d := by
          have := congrArg Prod.fst hinj
          simpa using this.symm
        have hr : rest = siftup ((d :: ds).set 0 last) 0 := by
          have := congrArg Prod.snd hinj
          simpa using this.symm
        rw [hx, hr]
        have hrest : List.Perm (siftup ((d :: ds).set 0 last) 0)
            (last :: ds) := by
          have := siftup_perm ((d :: ds).set 0 last) (by simp)
          simpa using this
        have hchain : List.Perm (d :: siftup ((d :: ds).set 0 last) 0)
            (last :: (d :: ds)) :=
          (hrest.cons d).trans (List.Perm.swap last d ds)
        refine hchain.trans ?_
        rw [← hsplit, hdl]
        exact (List.perm_append_singleton last (d :: ds)).symm

/-! ### Supporting facts for the `a_star` invariants -/

theorem action_cost_one (a : Action) : a.cost = 1 := rfl

/-- A valid action's destination stays inside the grid. -/
theorem valid_dest_inb (g : Grid) (n : Node) (hn : InBounds g n)
    (a : Action) (ha : a ∈ valid_actions g n) : InBounds g (applyA n a) := by
  rcases hn with ⟨h1, h2, h3, h4⟩
  rw [valid_actions, List.mem_filter] at ha
  rcases a with _ | _ | _ | _ <;>
    simp only [keepA, Bool.not_eq_true', Bool.or_eq_false_iff,
      decide_eq_false_iff_not, not_lt] at ha <;>
    · refine ⟨?_, ?_, ?_, ?_⟩ <;>
        simp only [applyA, Action.delta] <;> omega

/-- A key found by `lookup` is among the keys. -/
theorem lookup_mem_bkeys (b : Branch) (n : Node)
    (val : ℚ × Node × Action) (h : b.lookup n = some val) : n ∈ bkeys b := by
  rcases List.lookup_eq_some_iff.mp h with ⟨l₁, l₂, rfl, _⟩
  rw [bkeys]
  simp

/-- Conversely every key can be looked up. -/
theorem bkeys_lookup_some (b : Branch) (n : Node) (hmem : n ∈ bkeys b) :
    ∃ val, b.lookup n = some val := by
  have hsome : (b.lookup n).isSome := by
    rw [List.lookup_isSome_iff]
    rw [bkeys] at hmem
    rcases List.mem_map.mp hmem with ⟨e, he, hk⟩
    exact ⟨e, he, by simp [hk]⟩
  exact Option.isSome_iff_exists.mp hsome

/-- Looking up past an irrelevant prefix. -/
theorem lookup_append_of_not_mem (b₁ b₂ : Branch) (n : Node)
    (h : n ∉ bkeys b₁) : (b₁ ++ b₂).lookup n = b₂.lookup n := by
  rw [List.lookup_append]
  have hnone : b₁.lookup n = none := by
    rw [List.lookup_eq_none_iff]
    intro p hp
    simp only [bne_iff_ne, ne_eq]
    intro hh
    exact h (by rw [bkeys]; exact hh ▸ List.mem_map_of_mem Prod.fst hp)
  rw [hnone, Option.none_or]

/-- With duplicate-free keys, membership determines the lookup result. -/
theorem nodup_lookup (b : Branch) (hnd : (bkeys b).Nodup)
    (e : Node × (ℚ × Node × Action)) (he : e ∈ b) :
    b.lookup e.1 = some e.2 := by
  induction b with
  | nil => cases he
  | cons f rest ih =>
    rw [bkeys, List.map_cons, List.nodup_cons] at hnd
    rcases List.mem_cons.mp he with rfl | hrest
    · exact List.lookup_cons_self
    · have hne : (e.1 == f.1) = false := by
        simp only [beq_eq_false_iff_ne, ne_eq]
        intro hh
        exact hnd.1 (hh ▸ List.mem_map_of_mem Prod.fst hrest)
      rw [List.lookup_cons, hne]
      exact ih hnd.2 hrest

/-- A key is realised by one of the entries. -/
theorem mem_bkeys_exists (b : Branch) (n : Node) (h : n ∈ bkeys b) :
    ∃ e ∈ b, e.1 = n := by
  rw [bkeys] at h
  rcases List.mem_map.mp h with ⟨e, he, hkey⟩
  exact ⟨e, he, hkey⟩

/-- `EntryOK` is stable under prepending entries with fresh keys. -/
theorem EntryOK_extend (g : Grid) (start : Node) (b nb : Branch)
    (hfresh : ∀ n ∈ bkeys nb, n ∉ bkeys b)
    (e : Node × (ℚ × Node × Action)) (hok : EntryOK g start b e) :
    EntryOK g start (nb ++ b) e := by
  rcases hok with ⟨hval, happ, hcost⟩
  refine ⟨hval, happ, ?_⟩
  rcases hcost with h | ⟨hne, val, hlook, hc⟩
  · exact Or.inl h
  · refine Or.inr ⟨hne, val, ?_, hc⟩
    rw [lookup_append_of_not_mem]
    · exact hlook
    · intro hmem
      exact hfresh _ hmem (lookup_mem_bkeys b _ _ hlook)

/-- `BranchOrdered` is stable under prepending entries whose predecessors
are the start or old keys. -/
theorem BranchOrdered_append (start : Node) (b : Branch) :
    ∀ nb : Branch, (∀ e ∈ nb, e.2.2.1 = start ∨ e.2.2.1 ∈ bkeys b) →
      BranchOrdered start b → BranchOrdered start (nb ++ b) := by
  intro nb
  induction nb with
  | nil => intro _ hb; exact hb
  | cons e rest ih =>
    intro hpred hb
    rw [List.cons_append, BranchOrdered]
    constructor
    · rcases hpred e (List.mem_cons_self e rest) with h | h
      · exact Or.inl h
      · refine Or.inr ?_
        rw [bkeys, List.map_append]
        exact List.mem_append_right _ h
    · exact ih (fun f hf => hpred f (List.mem_cons_of_mem e hf)) hb

/-- Membership in `inbFinset` is exactly `InBounds`. -/
theorem mem_inbFinset (g : Grid) (n : Node) :
    n ∈ inbFinset g ↔ InBounds g n := by
  rw [inbFinset, Finset.mem_product, Finset.mem_Icc, Finset.mem_Icc, InBounds]
  omega

/-- The number of in-bounds cells. -/
theorem inbFinset_card (g : Grid) :
    (inbFinset g).card = g.nrows * g.ncols := by
  rw [inbFinset, Finset.card_product, Int.card_Icc, Int.card_Icc]
  simp only [sub_zero]
  have h1 : ((g.nrows : ℤ) - 1 + 1).toNat = g.nrows := by omega
  have h2 : ((g.ncols : ℤ) - 1 + 1).toNat = g.ncols := by omega
  rw [h1, h2]

/-- The net effect of the expansion loop over a list of actions: some new
entries `nb` are prepended to the branch dictionary, matching pushes land
on the frontier, the visited set absorbs exactly the new keys, and every
processed action's destination ends up visited. -/
theorem expand_spec (g : Grid) (h : Node → Node → ℚ) (goal current : Node)
    (currentCost : ℚ) :
    ∀ (acts : List Action) (q : List Entry) (v : Finset Node) (b : Branch),
      ∃ (nb : Branch) (nq : List Entry),
        (expand g h goal current currentCost acts (q, v, b)).2.2 = nb ++ b ∧
        List.Perm (expand g h goal current currentCost acts (q, v, b)).1
          (nq ++ q) ∧
        nq.map Prod.snd = bkeys nb ∧
        (∀ e ∈ nb, e.2.2.1 = current ∧ e.2.1 = currentCost + 1 ∧
          e.1 = applyA current e.2.2.2 ∧ e.2.2.2 ∈ acts ∧ e.1 ∉ v) ∧
        (bkeys nb).Nodup ∧
        (∀ n, n ∈ (expand g h goal current currentCost acts (q, v, b)).2.1 ↔
          (n ∈ v ∨ n ∈ bkeys nb)) ∧
        (∀ a ∈ acts, applyA current a ∈
          (expand g h goal current currentCost acts (q, v, b)).2.1) := by
  intro acts
  induction acts with
  | nil =>
    intro q v b
    refine ⟨[], [], rfl, List.Perm.refl _, rfl, by simp, by simp [bkeys],
      fun n => ?_, by simp⟩
    show n ∈ v ↔ n ∈ v ∨ n ∈ bkeys []
    simp [bkeys]
  | cons a rest ih =>
    intro q v b
    rw [expand]
    by_cases hv : applyA current a ∈ v
    · rw [if_neg (not_not_intro hv)]
      rcases ih q v b with ⟨nb, nq, h1, h2, h3, h4, h5, h6, h7⟩
      refine ⟨nb, nq, h1, h2, h3, ?_, h5, h6, ?_⟩
      · intro e he
        rcases h4 e he with ⟨p1, p2, p3, p4, p5⟩
        exact ⟨p1, p2, p3, List.mem_cons_of_mem a p4, p5⟩
      · intro a' ha'
        rcases List.mem_cons.mp ha' with rfl | hrest
        · exact (h6 _).mpr (Or.inl hv)
        · exact h7 a' hrest
    · rw [if_pos hv]
      rcases ih (heappush q (currentCost + a.cost + h (applyA current a) goal,
          applyA current a)) (insert (applyA current a) v)
          ((applyA current a, (currentCost + a.cost, current, a)) :: b)
        with ⟨nb, nq, h1, h2, h3, h4, h5, h6, h7⟩
      refine ⟨nb ++ [(applyA current a, (currentCost + a.cost, current, a))],
        nq ++ [(currentCost + a.cost + h (applyA current a) goal,
          applyA current a)], ?_, ?_, ?_, ?_, ?_, ?_, ?_⟩
      · rw [List.append_assoc]
        exact h1
      · have hassoc : (nq ++ [(currentCost + a.cost + h (applyA current a) goal,
            applyA current a)]) ++ q = nq ++ (currentCost + a.cost +
            h (applyA current a) goal, applyA current a) :: q := by
          rw [List.append_assoc]
          rfl
        rw [hassoc]
        exact h2.trans (List.Perm.append_left nq (heappush_perm q _))
      · rw [List.map_append, bkeys, List.map_append, ← bkeys, h3]
        rfl
      · intro e he
        rcases List.mem_append.mp he with hnb | hen
        · rcases h4 e hnb with ⟨p1, p2, p3, p4, p5⟩
          refine ⟨p1, p2, p3, List.mem_cons_of_mem a p4, fun hev => ?_⟩
          exact p5 (Finset.mem_insert_of_mem hev)
        · rcases List.mem_singleton.mp hen with rfl
          refine ⟨rfl, ?_, rfl, List.mem_cons_self a rest, hv⟩
          rw [action_cost_one]
      · rw [bkeys, List.map_append]
        refine List.Nodup.append h5 (by simp) ?_
        intro x hx hy
        rw [List.map_singleton, List.mem_singleton] at hy
        rcases mem_bkeys_exists nb x hx with ⟨e, he, hkey⟩
        have := (h4 e he).2.2.2.2
        rw [hkey] at this
        exact this (hy ▸ Finset.mem_insert_self _ _)
      · intro n
        rw [h6 n, Finset.mem_insert]
        simp only [bkeys, List.map_append, List.mem_append, List.map_cons,
          List.map_nil, List.mem_singleton]
        tauto
      · intro a' ha'
        rcases List.mem_cons.mp ha' with rfl | hrest
        · exact (h6 _).mpr (Or.inl (Finset.mem_insert_self _ _))
        · exact h7 a' hrest

/-- Reading the `BranchOrdered` invariant at an arbitrary suffix. -/
theorem BranchOrdered_suffix (start : Node) :
    ∀ (b : Branch), BranchOrdered start b →
      ∀ (e : Node × (ℚ × Node × Action)) (rest : Branch),
        (e :: rest) <:+ b → (e.2.2.1 = start ∨ e.2.2.1 ∈ bkeys rest) := by
  intro b
  induction b with
  | nil =>
    intro _ e rest hsuf
    rcases hsuf with ⟨l₁, hl⟩
    simp at hl
  | cons f t ih =>
    intro hord e rest hsuf
    rw [BranchOrdered] at hord
    rcases hsuf with ⟨l₁, hl⟩
    cases l₁ with
    | nil =>
      simp only [List.nil_append, List.cons.injEq] at hl
      rcases hl with ⟨rfl, rfl⟩
      exact hord.1
    | cons x l₁' =>
      simp only [List.cons_append, List.cons.injEq] at hl
      exact ih hord.2 e rest ⟨l₁', hl.2⟩

/-- Every branch entry records a genuine path from the start: its cost is
the (natural) length of its predecessor chain, the chain's steps are
valid grid moves, and the retracing loop reproduces the chain.  The
statement quantifies over suffixes so that the induction can follow the
newest-first ordering of the dictionary. -/
theorem branch_chain (g : Grid) (start : Node) (b : Branch)
    (hnd : (bkeys b).Nodup) (hent : ∀ e ∈ b, EntryOK g start b e)
    (hord : BranchOrdered start b) :
    ∀ (b₂ : Branch), b₂ <:+ b → ∀ e ∈ b₂,
      ∃ (k : ℕ) (ch : List Node),
        e.2.1 = (k : ℚ) + 1 ∧
        k + 1 ≤ b₂.length ∧
        ch.length = k + 1 ∧
        ch.getLast? = some start ∧
        Reach g start e.1 ∧
        List.Chain' (stepRel g) ((e.1 :: ch).reverse) ∧
        (∀ (fuel : ℕ) (acc : List Node), k + 1 ≤ fuel →
          retrace start b fuel e.1 acc = .ok (acc ++ ch)) := by
  intro b₂
  induction b₂ with
  | nil => intro _ e he; cases he
  | cons e₀ rest ih =>
    intro hsuf e he
    have hrestsuf : rest <:+ b := (List.suffix_cons e₀ rest).trans hsuf
    rcases List.mem_cons.mp he with rfl | hmem
    · -- `e` is the head entry of this suffix
      obtain ⟨n, c, p, a⟩ := e
      have heb : (n, c, p, a) ∈ b :=
        hsuf.subset (List.mem_cons_self _ _)
      have hok := hent _ heb
      rcases hok with ⟨hact, happ, hcost⟩
      simp only at hact happ hcost
      have hlookup : b.lookup n = some (c, p, a) := nodup_lookup b hnd _ heb
      rcases hcost with ⟨hps, hc1⟩ | ⟨hpns, val, hvlook, hvc⟩
      · -- predecessor is the start node
        subst hps
        refine ⟨0, [p], by rw [hc1]; norm_num, by simp, rfl, rfl, ?_, ?_, ?_⟩
        · simp only
          rw [happ]
          exact Reach.step Reach.refl hact
        · simp only [List.reverse_cons, List.reverse_nil, List.nil_append]
          refine List.chain'_append.mpr ⟨List.chain'_singleton p, ?_, ?_⟩
          · exact List.chain'_singleton n
          · intro x hx y hy
            simp only [List.getLast?_singleton, Option.mem_def,
              Option.some.injEq] at hx
            simp only [List.head?_cons, Option.mem_def, Option.some.injEq] at hy
            subst hx; subst hy
            exact ⟨a, hact, happ⟩
        · intro fuel acc hfuel
          match fuel, hfuel with
          | fuel + 1, _ =>
            rw [retrace, hlookup]
            simp
      · -- predecessor is an older key
        have hpkey : p ∈ bkeys rest := by
          rcases BranchOrdered_suffix start b hord (n, c, p, a) rest hsuf
            with hps | hk
          · exact absurd hps hpns
          · exact hk
        rcases mem_bkeys_exists rest p hpkey with ⟨e', he', hkey⟩
        have he'b : e' ∈ b := hrestsuf.subset he'
        have hlook' : b.lookup p = some e'.2 := by
          have := nodup_lookup b hnd e' he'b
          rwa [hkey] at this
        have hval : val = e'.2 := by
          have := hvlook.symm.trans hlook'
          exact Option.some.inj this
        rcases ih hrestsuf e' he' with ⟨k', ch', q1, q2, q3, q4, q5, q6, q7⟩
        have hcval : c = (k' : ℚ) + 1 + 1 := by
          rw [hvc, hval, q1]
        have hch'ne : ch' ≠ [] := by
          intro hnil
          rw [hnil] at q3
          simp at q3
        refine ⟨k' + 1, p :: ch', ?_, by simp; omega, by simp [q3], ?_, ?_,
          ?_, ?_⟩
        · rw [hcval]; push_cast; ring
        · rcases ch' with _ | ⟨y, ys⟩
          · exact absurd rfl hch'ne
          · rw [List.getLast?_cons_cons]
            exact q4
        · simp only
          rw [happ]
          refine Reach.step ?_ hact
          rw [← hkey]
          exact q5
        · simp only [List.reverse_cons]
          rw [← List.reverse_cons]
          refine List.chain'_append.mpr ⟨?_, List.chain'_singleton n, ?_⟩
          · have := q6
            rw [hkey] at this
            simpa [List.reverse_cons] using this
          · intro x hx y hy
            rw [List.getLast?_reverse] at hx
            simp only [List.head?_cons, Option.mem_def,
              Option.some.injEq] at hx hy
            subst hx; subst hy
            exact ⟨a, hact, happ⟩
        · intro fuel acc hfuel
          match fuel, hfuel with
          | fuel + 1, hfuel =>
            rw [retrace, hlookup]
            simp only
            rw [if_neg hpns]
            have hq7 := q7 fuel (acc ++ [p]) (by omega)
            rw [hkey] at hq7
            rw [hq7]
            rw [List.append_assoc]
            rfl
    · rcases ih hrestsuf e hmem with ⟨k, ch, p1, p2, p3, p4, p5, p6, p7⟩
      exact ⟨k, ch, p1, by simp only [List.length_cons]; omega, p3, p4,
        p5, p6, p7⟩

/-- If the loop exhausts the frontier without finding the goal, the goal
was never on the frontier. -/
theorem aStarLoop_goal_not_queued (g : Grid) (h : Node → Node → ℚ)
    (start goal : Node) :
    ∀ (fuel : ℕ) (q : List Entry) (v : Finset Node) (b : Branch)
      (q' : List Entry) (v' : Finset Node) (b' : Branch),
      aStarLoop g h start goal fuel q v b = .ok (false, q', v', b') →
      goal ∉ qnodes q := by
  intro fuel
  induction fuel with
  | zero =>
    intro q v b q' v' b' hrun
    rw [aStarLoop] at hrun
    cases hrun
  | succ fuel ih =>
    intro q v b q' v' b' hrun
    rw [aStarLoop] at hrun
    rcases hpop : heappop q with _ | ⟨item, q₂⟩
    · rw [heappop_none] at hpop
      subst hpop
      simp [qnodes]
    · rw [hpop] at hrun
      dsimp only at hrun
      rcases hc : (if item.2 = start then Except.ok 0
          else
            match b.lookup item.2 with
            | some v => Except.ok v.1
            | none => Except.error PyErr.keyError : Except PyErr ℚ)
        with e | cost
      · rw [hc] at hrun
        cases hrun
      · rw [hc] at hrun
        dsimp only at hrun
        by_cases hgoal : item.2 = goal
        · rw [if_pos hgoal] at hrun
          simp at hrun
        · rw [if_neg hgoal] at hrun
          rcases hE : expand g h goal item.2 cost (valid_actions g item.2)
            (q₂, v, b) with ⟨q2, v2, b2⟩
          rw [hE] at hrun
          dsimp only at hrun
          have hnotq2 := ih q2 v2 b2 q' v' b' hrun
          intro hg
          have hperm := heappop_perm q item q₂ hpop
          have hqperm : List.Perm (qnodes q) (item.2 :: qnodes q₂) :=
            (List.Perm.map Prod.snd hperm).symm
          rcases List.mem_cons.mp (hqperm.mem_iff.mp hg) with hh | hh
          · exact hgoal hh.symm
          · rcases expand_spec g h goal item.2 cost
              (valid_actions g item.2) q₂ v b
              with ⟨nb, nq, _, hp2, _, _, _, _, _⟩
            rw [hE] at hp2
            apply hnotq2
            have : List.Perm (qnodes q2) (qnodes (nq ++ q₂)) :=
              List.Perm.map Prod.snd hp2
            rw [this.mem_iff, qnodes, List.map_append]
            exact List.mem_append_right _ hh

/-- If the loop ends without finding the goal, the goal never entered the
visited set along the way. -/
theorem aStarLoop_goal_not_new (g : Grid) (h : Node → Node → ℚ)
    (start goal : Node) :
    ∀ (fuel : ℕ) (q : List Entry) (v : Finset Node) (b : Branch)
      (q' : List Entry) (v' : Finset Node) (b' : Branch),
      aStarLoop g h start goal fuel q v b = .ok (false, q', v', b') →
      goal ∈ v' → goal ∈ v := by
  intro fuel
  induction fuel with
  | zero =>
    intro q v b q' v' b' hrun
    rw [aStarLoop] at hrun
    cases hrun
  | succ fuel ih =>
    intro q v b q' v' b' hrun hv'
    rw [aStarLoop] at hrun
    rcases hpop : heappop q with _ | ⟨item, q₂⟩
    · rw [hpop] at hrun
      dsimp only at hrun
      have hveq : v = v' := by
        have := Except.ok.inj hrun
        exact (congrArg (fun t => t.2.2.1) this)
      rw [hveq]
      exact hv'
    · rw [hpop] at hrun
      dsimp only at hrun
      rcases hc : (if item.2 = start then Except.ok 0
          else
            match b.lookup item.2 with
            | some v => Except.ok v.1
            | none => Except.error PyErr.keyError : Except PyErr ℚ)
        with e | cost
      · rw [hc] at hrun
        cases hrun
      · rw [hc] at hrun
        dsimp only at hrun
        by_cases hgoal : item.2 = goal
        · rw [if_pos hgoal] at hrun
          simp at hrun
        · rw [if_neg hgoal] at hrun
          rcases hE : expand g h goal item.2 cost (valid_actions g item.2)
            (q₂, v, b) with ⟨q2, v2, b2⟩
          rw [hE] at hrun
          dsimp only at hrun
          have hv2 := ih q2 v2 b2 q' v' b' hrun hv'
          rcases expand_spec g h goal item.2 cost
            (valid_actions g item.2) q₂ v b
            with ⟨nb, nq, _, hp2, hp3, _, _, hp6, _⟩
          rw [hE] at hp2 hp6
          rcases (hp6 goal).mp hv2 with hg | hg
          · exact hg
          · exfalso
            apply aStarLoop_goal_not_queued g h start goal fuel q2 v2 b2
              q' v' b' hrun
            have hpq : List.Perm (qnodes q2) (qnodes (nq ++ q₂)) :=
              List.Perm.map Prod.snd hp2
            rw [hpq.mem_iff, qnodes, List.map_append]
            refine List.mem_append_left _ ?_
            rw [hp3]
            exact hg

/-- The main run lemma: from an invariant state with sufficient fuel, the
loop terminates without error, preserves the dictionary invariants, finds
only nodes it has really recorded, and on failure ends with an empty
frontier and the full invariant intact. -/
theorem aStarLoop_run (g : Grid) (h : Node → Node → ℚ) (start goal : Node)
    (hstart : InBounds g start) :
    ∀ (fuel : ℕ) (q : List Entry) (v : Finset Node) (b : Branch),
      AInv g start q v b →
      q.length + ((inbFinset g).card - v.card) < fuel →
      ∃ (found : Bool) (q' : List Entry) (v' : Finset Node) (b' : Branch),
        aStarLoop g h start goal fuel q v b = .ok (found, q', v', b') ∧
        (bkeys b').Nodup ∧
        (∀ e ∈ b', EntryOK g start b' e) ∧
        BranchOrdered start b' ∧
        (found = true → goal = start ∨ goal ∈ bkeys b') ∧
        (found = false → AInv g start q' v' b' ∧ q' = []) := by
  intro fuel
  induction fuel with
  | zero =>
    intro q v b _ hfuel
    omega
  | succ fuel ih =>
    intro q v b inv hfuel
    rcases hpop : heappop q with _ | ⟨item, q₂⟩
    · -- empty frontier: the loop reports failure
      have hqnil : q = [] := (heappop_none q).mp hpop
      refine ⟨false, q, v, b, ?_, inv.nodup, inv.entries, inv.ordered,
        by simp, fun _ => ⟨inv, hqnil⟩⟩
      rw [aStarLoop, hpop]
    · have hperm := heappop_perm q item q₂ hpop
      have hitem_mem : item ∈ q := hperm.subset (List.mem_cons_self _ _)
      have hqm := inv.qmem item hitem_mem
      have hqlen : q₂.length + 1 = q.length := by
        have := hperm.length_eq
        simpa using this
      rcases hc : (if item.2 = start then Except.ok 0
          else
            match b.lookup item.2 with
            | some v => Except.ok v.1
            | none => Except.error PyErr.keyError : Except PyErr ℚ)
        with e | cost
      · -- the cost computation cannot raise: the popped node is the
        -- start or a recorded key
        exfalso
        by_cases hcs : item.2 = start
        · rw [if_pos hcs] at hc
          cases hc
        · rw [if_neg hcs] at hc
          rcases hqm with hqs | hqk
          · exact hcs hqs
          · rcases bkeys_lookup_some b item.2 hqk with ⟨val, hval⟩
            rw [hval] at hc
            cases hc
      · have hcost_start : item.2 = start → cost = 0 := by
          intro hcs
          rw [if_pos hcs] at hc
          exact (Except.ok.inj hc).symm
        have hcost_key : item.2 ≠ start →
            ∃ val, b.lookup item.2 = some val ∧ cost = val.1 := by
          intro hcs
          rw [if_neg hcs] at hc
          rcases hqm with hqs | hqk
          · exact absurd hqs hcs
          · rcases bkeys_lookup_some b item.2 hqk with ⟨val, hval⟩
            rw [hval] at hc
            exact ⟨val, hval, (Except.ok.inj hc).symm⟩
        by_cases hgoal : item.2 = goal
        · -- the goal is popped: break with found = true
          refine ⟨true, q₂, v, b, ?_, inv.nodup, inv.entries, inv.ordered,
            fun _ => ?_, by simp⟩
          · rw [aStarLoop, hpop]
            dsimp only
            rw [hc]
            dsimp only
            rw [if_pos hgoal]
          · rw [← hgoal]
            exact hqm
        · -- expand the popped node and recurse
          rcases hEq : expand g h goal item.2 cost (valid_actions g item.2)
            (q₂, v, b) with ⟨q2, v2, b2⟩
          rcases expand_spec g h goal item.2 cost
            (valid_actions g item.2) q₂ v b
            with ⟨nb, nq, hE1, hE2, hE3, hE4, hE5, hE6, hE7⟩
          rw [hEq] at hE1 hE2 hE6 hE7
          dsimp only at hE1 hE2 hE6 hE7
          -- the popped node is in bounds
          have hcurinb : InBounds g item.2 := by
            rcases hqm with hqs | hqk
            · rw [hqs]; exact hstart
            · exact inv.inb _ hqk
          have hfreshb : ∀ n ∈ bkeys nb, n ∉ bkeys b := by
            intro n hn hmem
            rcases mem_bkeys_exists nb n hn with ⟨e, he, hkey⟩
            exact (hE4 e he).2.2.2.2 (hkey ▸ (inv.vis_eq n).mpr hmem)
          have hkeysb2 : ∀ n, n ∈ bkeys b2 ↔ n ∈ bkeys nb ∨ n ∈ bkeys b := by
            intro n
            rw [hE1, bkeys, List.map_append, List.mem_append, ← bkeys, ← bkeys]
          -- core invariant for the expanded state
          have hnodup2 : (bkeys b2).Nodup := by
            rw [hE1, bkeys, List.map_append]
            refine List.Nodup.append hE5 inv.nodup ?_
            intro x hx hy
            exact hfreshb x hx hy
          have hvis2 : ∀ n, n ∈ v2 ↔ n ∈ bkeys b2 := by
            intro n
            rw [hE6 n, hkeysb2 n, inv.vis_eq n]
            tauto
          have hentries2 : ∀ e ∈ b2, EntryOK g start b2 e := by
            intro e he
            rw [hE1] at he
            rcases List.mem_append.mp he with hnb | hb
            · rcases hE4 e hnb with ⟨p1, p2, p3, p4, p5⟩
              refine ⟨by rw [p1]; exact p4, by rw [p1]; exact p3, ?_⟩
              by_cases hcs : item.2 = start
              · refine Or.inl ⟨by rw [p1, hcs], ?_⟩
                rw [p2, hcost_start hcs]
                norm_num
              · rcases hcost_key hcs with ⟨val, hval, hcv⟩
                refine Or.inr ⟨by rw [p1]; exact hcs, val, ?_, ?_⟩
                · rw [hE1, p1]
                  rw [lookup_append_of_not_mem]
                  · exact hval
                  · intro hmem
                    exact hfreshb _ hmem (lookup_mem_bkeys b _ _ hval)
                · rw [p2, hcv]
            · rw [hE1]
              exact EntryOK_extend g start b nb hfreshb e (inv.entries e hb)
          have hordered2 : BranchOrdered start b2 := by
            rw [hE1]
            refine BranchOrdered_append start b nb ?_ inv.ordered
            intro e he
            rw [(hE4 e he).1]
            exact hqm
          have hq2nodes : List.Perm (qnodes q2) (qnodes (nq ++ q₂)) :=
            List.Perm.map Prod.snd hE2
          have hqmem2 : ∀ en ∈ q2, en.2 = start ∨ en.2 ∈ bkeys b2 := by
            intro en hen
            rcases List.mem_append.mp (hE2.subset hen) with hnq | hq₂
            · refine Or.inr ((hkeysb2 _).mpr (Or.inl ?_))
              rw [← hE3]
              exact List.mem_map_of_mem Prod.snd hnq
            · rcases inv.qmem en
                (hperm.subset (List.mem_cons_of_mem item hq₂)) with hs | hk
              · exact Or.inl hs
              · exact Or.inr ((hkeysb2 _).mpr (Or.inr hk))
          have hinb2 : ∀ n ∈ bkeys b2, InBounds g n := by
            intro n hn
            rcases (hkeysb2 n).mp hn with hnb | hb
            · rcases mem_bkeys_exists nb n hnb with ⟨e, he, hkey⟩
              rcases hE4 e he with ⟨p1, _, p3, p4, _⟩
              rw [← hkey, p3]
              refine valid_dest_inb g item.2 hcurinb _ ?_
              exact p4
            · exact inv.inb n hb
          have hclosed2 : ∀ n, (n = start ∨ n ∈ v2) →
              (n ∈ qnodes q2 ∨ ∀ a ∈ valid_actions g n, applyA n a ∈ v2) := by
            intro n hn
            have hv2cases : n = start ∨ n ∈ v ∨ n ∈ bkeys nb := by
              rcases hn with hs | hv2
              · exact Or.inl hs
              · rcases (hE6 n).mp hv2 with hv | hnb
                · exact Or.inr (Or.inl hv)
                · exact Or.inr (Or.inr hnb)
            rcases hv2cases with hs | hv | hnb
            · -- fall through to the old invariant
              rcases inv.closed n (Or.inl hs) with hq | hexp
              · -- n was on the old frontier
                rcases List.mem_cons.mp
                    ((List.Perm.map Prod.snd hperm).symm.mem_iff.mp hq)
                  with hcur | hq₂
                · refine Or.inr ?_
                  rw [hcur]
                  intro a ha
                  exact hE7 a ha
                · refine Or.inl ?_
                  rw [hq2nodes.mem_iff, qnodes, List.map_append]
                  exact List.mem_append_right _ hq₂
              · exact Or.inr fun a ha => (hE6 _).mpr (Or.inl (hexp a ha))
            · rcases inv.closed n (Or.inr hv) with hq | hexp
              · rcases List.mem_cons.mp
                    ((List.Perm.map Prod.snd hperm).symm.mem_iff.mp hq)
                  with hcur | hq₂
                · refine Or.inr ?_
                  rw [hcur]
                  intro a ha
                  exact hE7 a ha
                · refine Or.inl ?_
                  rw [hq2nodes.mem_iff, qnodes, List.map_append]
                  exact List.mem_append_right _ hq₂
              · exact Or.inr fun a ha => (hE6 _).mpr (Or.inl (hexp a ha))
            · refine Or.inl ?_
              rw [hq2nodes.mem_iff, qnodes, List.map_append]
              refine List.mem_append_left _ ?_
              rw [← qnodes, qnodes, hE3]
              exact hnb
          have hinv2 : AInv g start q2 v2 b2 :=
            ⟨⟨hnodup2, hvis2, hentries2, hordered2, hqmem2, hinb2⟩, hclosed2⟩
          -- fuel accounting
          have hsubv : v ⊆ inbFinset g := by
            intro n hn
            exact (mem_inbFinset g n).mpr (inv.inb n ((inv.vis_eq n).mp hn))
          have hsubv2 : v2 ⊆ inbFinset g := by
            intro n hn
            exact (mem_inbFinset g n).mpr (hinb2 n ((hvis2 n).mp hn))
          have hdisj : Disjoint v (bkeys nb).toFinset := by
            rw [Finset.disjoint_left]
            intro n hn hmem
            rw [List.mem_toFinset] at hmem
            rcases mem_bkeys_exists nb n hmem with ⟨e, he, hkey⟩
            exact (hE4 e he).2.2.2.2 (hkey ▸ hn)
          have hv2eq : v2 = v ∪ (bkeys nb).toFinset := by
            apply Finset.ext
            intro n
            rw [hE6 n, Finset.mem_union, List.mem_toFinset]
          have hcard2 : v2.card = v.card + nb.length := by
            rw [hv2eq, Finset.card_union_of_disjoint hdisj,
              List.toFinset_card_of_nodup hE5]
            congr 1
            rw [bkeys, List.length_map]
          have hnqlen : nq.length = nb.length := by
            have := congrArg List.length hE3
            rw [List.length_map] at this
            rw [this, bkeys, List.length_map]
          have hq2len : q2.length = nq.length + q₂.length := by
            have := hE2.length_eq
            rw [List.length_append] at this
            exact this
          have hcardle : v2.card ≤ (inbFinset g).card :=
            Finset.card_le_card hsubv2
          have hfuel2 : q2.length + ((inbFinset g).card - v2.card) < fuel := by
            have hcardle' : v.card + nb.length ≤ (inbFinset g).card := by
              rw [← hcard2]; exact hcardle
            omega
          rcases ih q2 v2 b2 hinv2 hfuel2 with
            ⟨found, q', v', b', hrun, c1, c2, c3, c4, c5⟩
          refine ⟨found, q', v', b', ?_, c1, c2, c3, c4, c5⟩
          rw [aStarLoop, hpop]
          dsimp only
          rw [hc]
          dsimp only
          rw [if_neg hgoal, hEq]
          exact hrun

/-- The initial state of the search (`queue = [(0, start)]`,
`visited = ∅`, `branch = {}`) satisfies the loop invariant. -/
theorem aInv_init (g : Grid) (start : Node) :
    AInv g start [((0 : ℚ), start)] ∅ [] := by
  refine ⟨⟨List.nodup_nil, ?_, ?_, trivial, ?_, ?_⟩, ?_⟩
  · intro n
    simp [bkeys]
  · intro e he
    cases he
  · intro en hen
    rcases List.mem_singleton.mp hen with rfl
    exact Or.inl rfl
  · intro n hn
    cases hn
  · intro n hn
    rcases hn with hs | hv
    · refine Or.inl ?_
      rw [hs]
      simp [qnodes]
    · simp at hv

/-- With an exhausted frontier, the closure property of the invariant
pins every node reachable from the start inside `{start} ∪ v`. -/
theorem reach_closed (g : Grid) (start : Node) (v : Finset Node)
    (b : Branch) (inv : AInv g start [] v b) :
    ∀ x, Reach g start x → x = start ∨ x ∈ v := by
  intro x hx
  induction hx with
  | refl => exact Or.inl rfl
  | @step n a hr ha ih =>
    refine Or.inr ?_
    rcases inv.closed n ih with hq | hcl
    · simp [qnodes] at hq
    · exact hcl a ha

/-- C2 (amended): when the goal is not reachable from an in-bounds start
by 4-connected unoccupied moves, `a_star` completes without error and
returns the bare pair `([], 0)` — an empty path with zero cost and no
explicit found/not-found signal in the return value (the `found` flag is
only printed). -/
theorem C2_failure_returns_bare_empty (g : Grid) (h : Node → Node → ℚ)
    (start goal : Node) (hs : InBounds g start)
    (hnr : ¬ Reach g start goal) :
    a_star g h start goal = .ok ([], 0) := by
  have hfuel : ([((0 : ℚ), start)] : List Entry).length +
      ((inbFinset g).card - (∅ : Finset Node).card) <
      g.nrows * g.ncols + 2 := by
    rw [inbFinset_card]
    simp only [List.length_cons, List.length_nil, Finset.card_empty,
      Nat.sub_zero]
    omega
  rcases aStarLoop_run g h start goal hs (g.nrows * g.ncols + 2)
      [((0 : ℚ), start)] ∅ [] (aInv_init g start) hfuel with
    ⟨found, q', v', b', hrun, c1, c2, c3, c4, _⟩
  have hff : found = false := by
    cases found
    · rfl
    · exfalso
      rcases c4 rfl with hgs | hgk
      · refine hnr ?_
        rw [hgs]
        exact Reach.refl
      · rcases mem_bkeys_exists b' goal hgk with ⟨e, he, hkey⟩
        rcases branch_chain g start b' c1 c2 c3 b' (List.suffix_refl b') e he
          with ⟨k, ch, _, _, _, _, hreach, _, _⟩
        refine hnr ?_
        rw [← hkey]
        exact hreach
  subst hff
  unfold a_star
  rw [hrun]

/-- C2 witness: on the 1×2 grid whose only neighbour cell is occupied,
the goal `(0, 1)` is unreachable from `(0, 0)` and `a_star` returns
`([], 0)`. -/
theorem C2_failure_returns_bare_empty_witness :
    a_star exBlk12 hZero (0, 0) (0, 1) = .ok ([], 0) :=
  C2_failure_returns_bare_empty exBlk12 hZero (0, 0) (0, 1) (by decide)
    (fun hr => absurd (reach_exBlk12 _ hr) (by decide))

/-- C5 (amended): for every grid and heuristic, every in-bounds start and
every goal reachable from the start with `start ≠ goal`, `a_star`
succeeds with a path that begins at the start, ends at the goal, steps by
one of the four unit moves at each link, and whose reported cost equals
its number of steps (length minus one). -/
theorem C5_path_shape (g : Grid) (h : Node → Node → ℚ) (start goal : Node)
    (hs : InBounds g start) (hne : start ≠ goal)
    (hr : Reach g start goal) :
    ∃ (p : List Node) (c : ℚ),
      a_star g h start goal = .ok (p, c) ∧
      p.head? = some start ∧
      p.getLast? = some goal ∧
      2 ≤ p.length ∧
      c = (p.length : ℚ) - 1 ∧
      List.Chain' (stepRel g) p := by
  have hfuel : ([((0 : ℚ), start)] : List Entry).length +
      ((inbFinset g).card - (∅ : Finset Node).card) <
      g.nrows * g.ncols + 2 := by
    rw [inbFinset_card]
    simp only [List.length_cons, List.length_nil, Finset.card_empty,
      Nat.sub_zero]
    omega
  rcases aStarLoop_run g h start goal hs (g.nrows * g.ncols + 2)
      [((0 : ℚ), start)] ∅ [] (aInv_init g start) hfuel with
    ⟨found, q', v', b', hrun, c1, c2, c3, c4, c5⟩
  have hft : found = true := by
    cases found
    · exfalso
      rcases c5 rfl with ⟨inv', hq'⟩
      subst hq'
      rcases reach_closed g start v' b' inv' goal hr with hgs | hgv
      · exact hne hgs.symm
      · have hgempty : goal ∈ (∅ : Finset Node) :=
          aStarLoop_goal_not_new g h start goal _ _ _ _ _ _ _ hrun hgv
        simp at hgempty
    · rfl
  subst hft
  rcases c4 rfl with hgs | hgk
  · exact absurd hgs.symm hne
  · rcases mem_bkeys_exists b' goal hgk with ⟨e, he, hkey⟩
    rcases branch_chain g start b' c1 c2 c3 b' (List.suffix_refl b') e he
      with ⟨k, ch, hc1, hc2, hc3, hc4, hc5, hc6, hc7⟩
    have hlook : b'.lookup goal = some e.2 := by
      rw [← hkey]
      exact nodup_lookup b' c1 e he
    have hretr := hc7 (b'.length + 1) [goal] (by omega)
    rw [hkey] at hretr
    rw [hkey] at hc6
    cases ch with
    | nil => exact absurd hc3.symm (Nat.succ_ne_zero k)
    | cons d ds =>
      have hdk : ds.length = k := by
        simp only [List.length_cons] at hc3
        omega
      refine ⟨([goal] ++ (d :: ds)).reverse, e.2.1, ?_, ?_, ?_, ?_, ?_, hc6⟩
      · unfold a_star
        rw [hrun]
        dsimp only
        rw [hlook]
        dsimp only
        rw [hretr]
      · rw [List.head?_reverse, List.singleton_append,
          List.getLast?_cons_cons]
        exact hc4
      · rw [List.getLast?_reverse]
        rfl
      · simp only [List.length_reverse, List.singleton_append,
          List.length_cons]
        omega
      · rw [hc1, List.length_reverse, List.singleton_append,
          List.length_cons, List.length_cons, hdk]
        push_cast
        ring

/-- C5 witness: on the free 1×2 grid, from `(0, 0)` to the reachable
goal `(0, 1)`, `a_star` returns a well-shaped path. -/
theorem C5_path_shape_witness :
    ∃ (p : List Node) (c : ℚ),
      a_star exFree12 hZero (0, 0) (0, 1) = .ok (p, c) ∧
      p.head? = some ((0 : ℤ), (0 : ℤ)) ∧
      p.getLast? = some ((0 : ℤ), (1 : ℤ)) ∧
      2 ≤ p.length ∧
      c = (p.length : ℚ) - 1 ∧
      List.Chain' (stepRel exFree12) p := by
  refine C5_path_shape exFree12 hZero (0, 0) (0, 1) (by decide) (by decide)
    ?_
  have h1 : ((0 : ℤ), (1 : ℤ)) = applyA ((0 : ℤ), (0 : ℤ)) Action.EAST := by
    decide
  rw [h1]
  exact Reach.step Reach.refl (by decide)

end MP
